import Mathlib

set_option maxRecDepth 40000

/-!
# Verification of the HRFlow CV-parser core (src/cv-parser/main.py)

Shallow embedding of the field-extraction pipeline of `main.py`:
`normalize_text`, `extract_email`, `extract_phone`, `extract_name`,
`extract_skills`, `extract_experience_years`, `extract_education` and
`parse_cv_text`.  Strings are modelled as `List Char`; Python's `re`
searches are modelled by hand-written matchers that reproduce the
leftmost-greedy backtracking semantics of the concrete patterns used in
the source.  Python `set`s of strings are modelled as `Finset (List Char)`.

Unicode caveat: the character predicates (`\s`, `\w`, `str.isupper`,
`str.lower`, `str.title`) are modelled on their ASCII behaviour, which is
the range exercised by the program's data (skill vocabulary, keywords,
regex literals).
-/

namespace HRFlow

/-! ## Character predicates and basic Python string operations -/

/-- Python's `\s` class (ASCII range): space, tab, newline, carriage
return, vertical tab, form feed. -/
def pyIsSpace (c : Char) : Bool :=
  c == ' ' || c == '\t' || c == '\n' || c == '\r' || c == '\x0b' || c == '\x0c'

/-- Python's `\w` class (ASCII range): letters, digits, underscore. -/
def isWordChar (c : Char) : Bool :=
  c.isAlphanum || c == '_'

/-- `\w`-ness of an optional character; `none` (out of range) counts as
a non-word position, matching `re`'s treatment of string ends for `\b`. -/
def isWordOpt : Option Char → Bool
  | none => false
  | some c => isWordChar c

/-- Python `str.lower` (ASCII). -/
def pyLower (s : List Char) : List Char := s.map Char.toLower

/-- Python `str.upper` (ASCII). -/
def pyUpper (s : List Char) : List Char := s.map Char.toUpper

/-- One step of Python `str.title`: uppercase every letter that follows a
non-letter, lowercase the other letters.  `prevAlpha` says whether the
previous character was a letter. -/
def pyTitleGo : Bool → List Char → List Char
  | _, [] => []
  | prevAlpha, c :: rest =>
    if c.isAlpha then
      (if prevAlpha then c.toLower else c.toUpper) :: pyTitleGo true rest
    else
      c :: pyTitleGo false rest

/-- Python `str.title` (ASCII). -/
def pyTitle (s : List Char) : List Char := pyTitleGo false s

/-- The recursion of `collapseWS`: `inRun` records whether the previous
character was whitespace (so that a whole run emits one space). -/
def collapseGo : Bool → List Char → List Char
  | _, [] => []
  | inRun, c :: rest =>
    if pyIsSpace c then
      if inRun then collapseGo true rest else ' ' :: collapseGo true rest
    else c :: collapseGo false rest

/-- `re.sub(r'\s+', ' ', text)`: replace every maximal run of whitespace
by a single ASCII space. -/
def collapseWS (l : List Char) : List Char := collapseGo false l

/-- Python `str.strip()` (whitespace strip at both ends). -/
def pyStrip (s : List Char) : List Char :=
  (s.dropWhile pyIsSpace).rdropWhile pyIsSpace

/-- Python `str.split()`: split on whitespace, dropping the empty
segments produced by adjacent/leading/trailing separators. -/
def splitWS (s : List Char) : List (List Char) :=
  (s.splitOnP pyIsSpace).filter (fun tok => !tok.isEmpty)

/-- Python `str.split(sep)` for a single-character separator. -/
def pySplitOn (sep : Char) (s : List Char) : List (List Char) :=
  s.splitOn sep

/-- Python `sep.join(parts)` for a string separator. -/
def pyJoin (sep : List Char) (parts : List (List Char)) : List Char :=
  List.intercalate sep parts

/-! ## `normalize_text` (main.py lines 63-77) -/

/-- `normalize_text`: collapse all whitespace runs to single spaces,
strip, then split on `'|'` and rejoin with `" | "`. -/
def normalize_text (text : List Char) : List Char :=
  let normalized := pyStrip (collapseWS text)
  let parts := pySplitOn '|' normalized
  pyJoin [' ', '|', ' '] parts

/-! ## Generic leftmost regex search

`re.search` tries each start position from the left and returns the first
position at which the pattern matches; `m prev s` is a matcher that
receives the character preceding the current position (for `\b`) and the
remaining text, returning the length of the (greedy) match at that
position if any. -/

/-- Leftmost search: returns `(start index, match length)` of the first
position where the matcher succeeds. -/
def searchFrom (m : Option Char → List Char → Option Nat) :
    Option Char → List Char → Nat → Option (Nat × Nat)
  | prev, [], i => (m prev []).map (fun n => (i, n))
  | prev, c :: rest, i =>
    match m prev (c :: rest) with
    | some n => some (i, n)
    | none => searchFrom m (some c) rest (i + 1)

/-- `re.search` over a whole text. -/
def reSearch (m : Option Char → List Char → Option Nat) (t : List Char) :
    Option (Nat × Nat) :=
  searchFrom m none t 0

/-- `match.group(0)`: the matched slice of the text. -/
def sliceOf (t : List Char) (p : Nat × Nat) : List Char :=
  (t.drop p.1).take p.2

/-! ## `extract_email` (main.py lines 109-114)

Pattern: `\b[A-Za-z0-9._%+-]+@[A-Za-z0-9.-]+\.[A-Z|a-z]{2,}\b`.
Note that the TLD class `[A-Z|a-z]` literally contains `'|'`. -/

/-- Local-part class `[A-Za-z0-9._%+-]`. -/
def isLocalChar (c : Char) : Bool :=
  c.isAlphanum || c == '.' || c == '_' || c == '%' || c == '+' || c == '-'

/-- Domain class `[A-Za-z0-9.-]`. -/
def isDomChar (c : Char) : Bool :=
  c.isAlphanum || c == '.' || c == '-'

/-- TLD class `[A-Z|a-z]` — uppercase letters, `'|'`, lowercase letters. -/
def isTldChar (c : Char) : Bool :=
  c.isAlpha || c == '|'

/-- `[A-Z|a-z]{2,}\b`, greedy: with `run` the length of the maximal
TLD-class run at `s`, try to consume `n` characters (descending from the
run length down to 2) such that a `\b` holds after the `n`-th one. -/
def tryTld (s : List Char) : Nat → Option Nat
  | 0 => none
  | 1 => none
  | n + 2 =>
    if isWordOpt s[n + 1]? != isWordOpt s[n + 2]? then some (n + 2)
    else tryTld s (n + 1)

/-- `[A-Za-z0-9.-]+\.[A-Z|a-z]{2,}\b` at `s2`, greedy-backtracking on the
number `k` of domain characters consumed (descending).  Since `'.' `
belongs to the domain class, the `\.` must consume a dot lying inside the
maximal domain run, which the descending search on `k` reproduces. -/
def domDotTld (s2 : List Char) : Nat → Option Nat
  | 0 => none
  | k + 1 =>
    if s2[k + 1]? == some '.' then
      match tryTld (s2.drop (k + 2)) ((s2.drop (k + 2)).takeWhile isTldChar).length with
      | some j => some (k + 1 + 1 + j)
      | none => domDotTld s2 k
    else domDotTld s2 k

/-- The email pattern matcher at one position.  The `+` after the
local-part class never needs backtracking: a shorter local run would be
followed by another local-class character, which cannot be `'@'`. -/
def emailMatchAt (prev : Option Char) (s : List Char) : Option Nat :=
  -- leading \b
  if isWordOpt prev == isWordOpt s.head? then none
  else
    let loc := s.takeWhile isLocalChar
    if loc.isEmpty then none
    else
      match s.drop loc.length with
      | '@' :: s2 =>
        match domDotTld s2 (s2.takeWhile isDomChar).length with
        | some n => some (loc.length + 1 + n)
        | none => none
      | _ => none

/-- `extract_email` (main.py lines 109-114). -/
def extract_email (text : List Char) : Option (List Char) :=
  (reSearch emailMatchAt text).map (sliceOf text)

/-! ## A small backtracking regex engine

Used for the phone and degree patterns, whose repetition operators all
range over single-character classes; `matchRE` is the standard
continuation-passing backtracking matcher, which reproduces Python
`re`'s leftmost-greedy semantics (ordered alternation, greedy
repetition/option). -/

inductive RE where
  /-- Matches the empty string. -/
  | eps : RE
  /-- Never matches (identity of alternation). -/
  | fail : RE
  | lit : List Char → RE
  /-- `[c]{lo,hi}` (with `hi = none` for unbounded), greedy. -/
  | rep : (Char → Bool) → Nat → Option Nat → RE
  | opt : RE → RE
  | alt2 : RE → RE → RE
  | seq2 : RE → RE → RE
  | bnd : RE

/-- Ordered alternation of a list of alternatives. -/
def reAlt (rs : List RE) : RE := rs.foldr .alt2 .fail

/-- Sequencing of a list of regexes. -/
def reSeq (rs : List RE) : RE := rs.foldr .seq2 .eps

/-- The previous character after consuming `n` characters of `s`. -/
def prevAfter (prev : Option Char) (s : List Char) (n : Nat) : Option Char :=
  if n = 0 then prev else s[n - 1]?

/-- Greedy class repetition: try consuming `n, n-1, ..., lo` characters
(each of the first `n` characters of `s` is known to lie in the class). -/
def repTry (lo : Nat) (prev : Option Char) (s : List Char)
    (k : Option Char → List Char → Option Nat) : Nat → Option Nat
  | 0 => if lo = 0 then k prev s else none
  | n + 1 =>
    if n + 1 < lo then none
    else
      match (k (prevAfter prev s (n + 1)) (s.drop (n + 1))).map (· + (n + 1)) with
      | some r => some r
      | none => repTry lo prev s k n

def matchRE : RE → Option Char → List Char → (Option Char → List Char → Option Nat) → Option Nat
  | .eps, prev, s, k => k prev s
  | .fail, _, _, _ => none
  | .lit p, prev, s, k =>
    if p.isPrefixOf s then
      (k (prevAfter prev s p.length) (s.drop p.length)).map (· + p.length)
    else none
  | .rep q lo hi, prev, s, k =>
    repTry lo prev s k (min (hi.getD s.length) ((s.takeWhile q).length))
  | .opt r, prev, s, k =>
    (match matchRE r prev s k with
     | some n => some n
     | none => k prev s)
  | .alt2 r₁ r₂, prev, s, k =>
    (match matchRE r₁ prev s k with
     | some n => some n
     | none => matchRE r₂ prev s k)
  | .seq2 r₁ r₂, prev, s, k =>
    matchRE r₁ prev s (fun p' s' => matchRE r₂ p' s' k)
  | .bnd, prev, s, k =>
    if isWordOpt prev != isWordOpt s.head? then k prev s else none

/-- Matcher for a whole `RE` at one position. -/
def reMatcher (r : RE) (prev : Option Char) (s : List Char) : Option Nat :=
  matchRE r prev s (fun _ _ => some 0)

/-! ## `extract_phone` (main.py lines 117-131) -/

/-- Separator class `[-.\s]`. -/
def isSepChar (c : Char) : Bool :=
  c == '-' || c == '.' || pyIsSpace c

/-- `\+\d{1,4}\s?\d{6,10}` — international, e.g. `+973 33430100`. -/
def phonePattern1 : RE :=
  reSeq [.lit ['+'], .rep Char.isDigit 1 (some 4), .rep pyIsSpace 0 (some 1),
        .rep Char.isDigit 6 (some 10)]

/-- `\+\d{1,4}[-.\s]?\d{3,4}[-.\s]?\d{3,4}[-.\s]?\d{3,4}`. -/
def phonePattern2 : RE :=
  reSeq [.lit ['+'], .rep Char.isDigit 1 (some 4), .rep isSepChar 0 (some 1),
        .rep Char.isDigit 3 (some 4), .rep isSepChar 0 (some 1),
        .rep Char.isDigit 3 (some 4), .rep isSepChar 0 (some 1),
        .rep Char.isDigit 3 (some 4)]

/-- `\+?\d{1,3}[-.\s]?\(?\d{3}\)?[-.\s]?\d{3}[-.\s]?\d{4}`. -/
def phonePattern3 : RE :=
  reSeq [.opt (.lit ['+']), .rep Char.isDigit 1 (some 3), .rep isSepChar 0 (some 1),
        .opt (.lit ['(']), .rep Char.isDigit 3 (some 3), .opt (.lit [')']),
        .rep isSepChar 0 (some 1), .rep Char.isDigit 3 (some 3),
        .rep isSepChar 0 (some 1), .rep Char.isDigit 4 (some 4)]

/-- `\(?\d{3}\)?[-.\s]?\d{3}[-.\s]?\d{4}`. -/
def phonePattern4 : RE :=
  reSeq [.opt (.lit ['(']), .rep Char.isDigit 3 (some 3), .opt (.lit [')']),
        .rep isSepChar 0 (some 1), .rep Char.isDigit 3 (some 3),
        .rep isSepChar 0 (some 1), .rep Char.isDigit 4 (some 4)]

/-- `\b\d{8}\b`. -/
def phonePattern5 : RE :=
  reSeq [.bnd, .rep Char.isDigit 8 (some 8), .bnd]

def phone_patterns : List RE :=
  [phonePattern1, phonePattern2, phonePattern3, phonePattern4, phonePattern5]

/-- `extract_phone`: try the patterns in order, return the first
pattern's first match. -/
def extract_phone (text : List Char) : Option (List Char) :=
  (phone_patterns.firstM (fun p => reSearch (reMatcher p) text)).map (sliceOf text)

/-! ## Skill vocabulary (main.py lines 18-45) -/

/-- Helper: a string literal as a `List Char`. -/
def cs (s : String) : List Char := s.toList

/-- `SKILLS_LIST` (main.py lines 18-36). -/
def SKILLS_LIST : List (List Char) :=
  [cs "python", cs "java", cs "javascript", cs "typescript", cs "react",
   cs "node.js", cs "nodejs", cs "angular", cs "vue", cs "sql",
   cs "postgresql", cs "mysql", cs "mongodb", cs "docker", cs "kubernetes",
   cs "aws", cs "azure", cs "gcp", cs "git", cs "agile", cs "scrum",
   cs "html", cs "css", cs "rest", cs "api", cs "microservices", cs "ci/cd",
   cs "devops", cs "machine learning", cs "data analysis", cs "excel",
   cs "powerpoint", cs "communication", cs "leadership",
   cs "project management", cs "teamwork", cs "problem solving",
   cs "c#", cs "c++", cs ".net", cs "go", cs "golang", cs "rust", cs "swift",
   cs "kotlin", cs "php", cs "ruby", cs "terraform", cs "ansible",
   cs "jenkins", cs "linux", cs "windows", cs "networking", cs "redis",
   cs "elasticsearch", cs "kafka", cs "rabbitmq", cs "graphql", cs "spring",
   cs "django", cs "flask", cs "fastapi", cs "express", cs "nextjs",
   cs "nuxt", cs "svelte", cs "tailwind", cs "figma", cs "photoshop",
   cs "illustrator", cs "ui/ux", cs "ux design", cs "ui design",
   cs "salesforce", cs "sap", cs "oracle", cs "power bi", cs "tableau",
   cs "jira", cs "confluence", cs "pandas", cs "numpy", cs "tensorflow",
   cs "pytorch", cs "scikit-learn", cs "spark", cs "hadoop", cs "r",
   cs "matlab", cs "statistics", cs "deep learning", cs "nlp",
   cs "computer vision"]

/-- `SKILL_ALIASES` (main.py lines 39-45), as an association list. -/
def SKILL_ALIASES : List (List Char × List Char) :=
  [(cs "js", cs "javascript"), (cs "ts", cs "typescript"),
   (cs "reactjs", cs "react"), (cs "react.js", cs "react"),
   (cs "node", cs "node.js"), (cs "postgres", cs "postgresql"),
   (cs "mongo", cs "mongodb"), (cs "k8s", cs "kubernetes"),
   (cs "py", cs "python"), (cs "golang", cs "go"), (cs "csharp", cs "c#"),
   (cs "dotnet", cs ".net"), (cs "scikit", cs "scikit-learn"),
   (cs "sklearn", cs "scikit-learn"), (cs "tf", cs "tensorflow"),
   (cs "aws lambda", cs "aws"), (cs "ec2", cs "aws"), (cs "s3", cs "aws")]

/-! ## `extract_skills` (main.py lines 250-310) -/

/-- The token class of `re.findall(the class of a-z 0-9 # + . / -, text_lower)`. -/
def isTokChar (c : Char) : Bool :=
  c.isLower || c.isDigit || c == '#' || c == '+' || c == '.' || c == '/' || c == '-'

/-- `re.findall(the class of a-z 0-9 # + . / -, s)`: the maximal runs of token-class
characters. -/
def classTokens (s : List Char) : List (List Char) :=
  (s.splitOnP (fun c => !isTokChar c)).filter (fun tok => !tok.isEmpty)

/-- `special_case_skills` (main.py line 256). -/
def special_case_skills : List (List Char) :=
  [cs "c#", cs "c++", cs ".net", cs "ci/cd", cs "ui/ux", cs "nlp"]

/-- `special_pattern_skills` (main.py line 258). -/
def special_pattern_skills : List (List Char) :=
  [cs "c#", cs "c++", cs ".net", cs "ci/cd", cs "ui/ux", cs "node.js"]

/-- `format_skill` (main.py lines 260-264). -/
def format_skill (skill : List Char) : List Char :=
  if pyLower skill ∈ special_case_skills then
    if pyLower skill ∈ [cs "nlp"] then pyUpper skill else skill
  else pyTitle skill

/-- One DP step: given the tail of the previous row (headed by the
"up" entry for the next column), the diagonal and left values, compute
the rest of the new row along `bs`. -/
def lcsNewRow (a : Char) : List Char → List Nat → Nat → Nat → List Nat
  | [], _, _, _ => []
  | bc :: brest, prow, diag, left =>
    match prow with
    | [] => []
    | up :: prest =>
      let here := if bc == a then diag + 1 else max up left
      here :: lcsNewRow a brest prest up here

def lcsRow (b : List Char) : List Char → List Nat
  | [] => List.replicate (b.length + 1) 0
  | a :: as' =>
    match lcsRow b as' with
    | [] => []
    | p0 :: prest => 0 :: lcsNewRow a b prest p0 0

/-- Longest common subsequence length of two strings.  `lcsRow` is fed
the reversed first string so that recursion peels characters from its
front. -/
def lcsLen (a b : List Char) : Nat :=
  (lcsRow b a.reverse).getLast?.getD 0

/-- `rapidfuzz.fuzz.ratio` as an exact rational, scaled:
`ratio(a, b) = 200 * LCS(a, b) / (|a| + |b|)` on a 0-100 scale (the
normalized InDel similarity).  Comparisons against thresholds and between
candidates are done by cross-multiplication, avoiding floats. -/
def ratioNumDen (a b : List Char) : Nat × Nat :=
  (200 * lcsLen a b, a.length + b.length)

/-- One step of the best-match fold of `process.extractOne`: keep the
strictly better candidate (ties keep the earlier one); scores are
compared by cross-multiplication. -/
def fuzzyFold (word : List Char) (acc : Option (List Char × (Nat × Nat)))
    (sk : List Char) : Option (List Char × (Nat × Nat)) :=
  let r := ratioNumDen word sk
  match acc with
  | none => some (sk, r)
  | some (_, rb) => if r.1 * rb.2 > rb.1 * r.2 then some (sk, r) else acc

/-- `process.extractOne(word, SKILLS_LIST, scorer=fuzz.ratio,
score_cutoff=85)`: the first vocabulary entry attaining the maximal
ratio, provided that maximum is ≥ 85. -/
def fuzzyBest (word : List Char) : Option (List Char) :=
  match SKILLS_LIST.foldl (fuzzyFold word) none with
  | some (sk, r) => if r.1 ≥ 85 * r.2 then some sk else none
  | none => none

/-- Layer 1 (main.py lines 267-271): alias resolution over the tokens. -/
def aliasLayer (ws : List (List Char)) (s0 : Finset (List Char)) :
    Finset (List Char) :=
  ws.foldl
    (fun s w =>
      match (SKILL_ALIASES.lookup w) with
      | some canonical => insert (format_skill canonical) s
      | none => s)
    s0

/-- Layer 2 (main.py lines 273-276): direct substring search for the
special-pattern skills. -/
def specialLayer (textLower : List Char) (s0 : Finset (List Char)) :
    Finset (List Char) :=
  special_pattern_skills.foldl
    (fun s sk => if pyLower sk <:+: textLower then insert (format_skill sk) s else s)
    s0

/-- Whether the literal pattern `\b sk \b` matches `text` at index `i`. -/
def wbMatchAtIdx (text sk : List Char) (i : Nat) : Bool :=
  ((text.drop i).take sk.length == sk) &&
  (isWordOpt (if i = 0 then none else text[i - 1]?) != isWordOpt text[i]?) &&
  (isWordOpt text[i + sk.length - 1]? != isWordOpt text[i + sk.length]?)

/-- `re.search(r'\b' + re.escape(sk) + r'\b', text)` for a literal
(nonempty) `sk`. -/
def wbSearch (text sk : List Char) : Bool :=
  (List.range (text.length + 1)).any (wbMatchAtIdx text sk)

/-- Layer 3 (main.py lines 278-284): whole-word exact matches for the
non-special vocabulary. -/
def exactLayer (textLower : List Char) (s0 : Finset (List Char)) :
    Finset (List Char) :=
  SKILLS_LIST.foldl
    (fun s sk =>
      if sk ∈ special_pattern_skills then s
      else if wbSearch textLower (pyLower sk) then insert (format_skill sk) s
      else s)
    s0

/-- `matched_words` (main.py lines 287-289): the words of the
lower-cased found skills. -/
def matchedWords (found : Finset (List Char)) : Finset (List Char) :=
  found.biUnion (fun sk => (splitWS (pyLower sk)).toFinset)

/-- The noise test of main.py line 295:
`word.isdigit() or re.match(anchored runs of 0-9 . / -, word)`. -/
def isNoiseWord (w : List Char) : Bool :=
  (!w.isEmpty && w.all Char.isDigit) ||
  (!w.isEmpty && w.all (fun c => c.isDigit || c == '.' || c == '/' || c == '-'))

/-- One iteration of the fuzzy loop (main.py lines 291-308): skip short,
already-matched or noise words, otherwise add the formatted best fuzzy
match when its score reaches the cutoff. -/
def fuzzyStep (mw : Finset (List Char)) (s : Finset (List Char)) (w : List Char) :
    Finset (List Char) :=
  if w.length < 4 || w ∈ mw then s
  else if isNoiseWord w then s
  else
    match fuzzyBest w with
    | some sk => insert (format_skill sk) s
    | none => s

/-- Layer 4 (main.py lines 291-308): fuzzy matching for the remaining
tokens.  `matched_words` is computed once before the loop and not
updated inside it, as in the source. -/
def fuzzyLayer (ws : List (List Char)) (mw : Finset (List Char))
    (s0 : Finset (List Char)) : Finset (List Char) :=
  ws.foldl (fuzzyStep mw) s0

/-- `extract_skills` (main.py lines 250-310).  The Python function
returns `list(found_skills)`; the set itself is the model (the list
order of a Python `set` is unspecified). -/
def extract_skills (text : List Char) : Finset (List Char) :=
  let textLower := pyLower text
  let ws := classTokens textLower
  let s1 := aliasLayer ws ∅
  let s2 := specialLayer textLower s1
  let s3 := exactLayer textLower s2
  fuzzyLayer ws (matchedWords s3) s3

/-! ## `extract_experience_years` (main.py lines 313-327)

The three patterns are embedded as specialised matchers.  In each of
them the greedy pieces are deterministic: a shorter `\d+` leaves a digit
where a non-digit is required, a shorter `\s*` leaves a whitespace
character where a letter is required, and an unconsumed `\+?` leaves a
`'+'` where whitespace or a letter is required — so only the optional
`s` of `years?` and the optional `of` / `[:.]` groups branch, and they
are tried greedily (consume first). -/

/-- Value of a digit run. -/
def digitsToNat (ds : List Char) : Nat :=
  ds.foldl (fun acc c => acc * 10 + (c.toNat - '0'.toNat)) 0

/-- `\s*(?:of)?\s*experience`. -/
def ofExperience (s : List Char) : Bool :=
  let a := s.dropWhile pyIsSpace
  ((cs "of").isPrefixOf a && (cs "experience").isPrefixOf ((a.drop 2).dropWhile pyIsSpace))
  || (cs "experience").isPrefixOf a

/-- `years?\s*(?:of)?\s*experience` starting at `s`. -/
def yearsOfExperience (s : List Char) : Bool :=
  (cs "year").isPrefixOf s &&
    (let r := s.drop 4
     (r.head? == some 's' && ofExperience r.tail) || ofExperience r)

/-- Pattern 1 `(\d+)\+?\s*years?\s*(?:of)?\s*experience` at one
position; returns the captured group as a number. -/
def expPat1At (s : List Char) : Option Nat :=
  let ds := s.takeWhile Char.isDigit
  if ds.isEmpty then none
  else
    let r1 := s.drop ds.length
    let r2 := if r1.head? == some '+' then r1.tail else r1
    if yearsOfExperience (r2.dropWhile pyIsSpace) then some (digitsToNat ds) else none

/-- `(\d+)\+?\s*years?` at one position (tail of pattern 2). -/
def digitsYears (s : List Char) : Option Nat :=
  let ds := s.takeWhile Char.isDigit
  if ds.isEmpty then none
  else
    let r1 := s.drop ds.length
    let r2 := if r1.head? == some '+' then r1.tail else r1
    if (cs "year").isPrefixOf (r2.dropWhile pyIsSpace) then some (digitsToNat ds) else none

/-- Pattern 2 `experience\s*[:.]?\s*(\d+)\+?\s*years?` at one position. -/
def expPat2At (s : List Char) : Option Nat :=
  if (cs "experience").isPrefixOf s then
    let a := (s.drop 10).dropWhile pyIsSpace
    let withPunct :=
      if a.head? == some ':' || a.head? == some '.' then
        digitsYears (a.tail.dropWhile pyIsSpace)
      else none
    match withPunct with
    | some n => some n
    | none => digitsYears a
  else none

/-- Pattern 3 `(\d+)-\d+\s*years?\s*(?:of)?\s*experience` at one
position. -/
def expPat3At (s : List Char) : Option Nat :=
  let ds := s.takeWhile Char.isDigit
  if ds.isEmpty then none
  else
    let r1 := s.drop ds.length
    if r1.head? == some '-' then
      let ds2 := r1.tail.takeWhile Char.isDigit
      if ds2.isEmpty then none
      else if yearsOfExperience ((r1.tail.drop ds2.length).dropWhile pyIsSpace) then
        some (digitsToNat ds)
      else none
    else none

/-- Leftmost match of a position matcher that returns a captured value. -/
def searchCapture (m : List Char → Option Nat) : List Char → Option Nat
  | [] => m []
  | s@(_ :: rest) =>
    match m s with
    | some n => some n
    | none => searchCapture m rest

/-- `extract_experience_years` (main.py lines 313-327): try the three
patterns in order on the lower-cased text; first matching pattern wins. -/
def extract_experience_years (text : List Char) : Option Nat :=
  let tl := pyLower text
  match searchCapture expPat1At tl with
  | some n => some n
  | none =>
    match searchCapture expPat2At tl with
    | some n => some n
    | none => searchCapture expPat3At tl

/-! ## `extract_name` (main.py lines 134-247) -/

def skip_keywords : List (List Char) :=
  [cs "curriculum", cs "vitae", cs "resume", cs "cv", cs "contact",
   cs "profile", cs "about", cs "summary", cs "objective", cs "experience",
   cs "education", cs "skills"]

def job_title_keywords : List (List Char) :=
  [cs "analyst", cs "developer", cs "engineer", cs "manager", cs "director",
   cs "consultant", cs "specialist", cs "senior", cs "junior", cs "lead",
   cs "architect", cs "admin", cs "officer", cs "data", cs "product",
   cs "designer", cs "coordinator", cs "executive", cs "intern", cs "trainee"]

def name_connectors : List (List Char) :=
  [cs "bin", cs "al", cs "de", cs "van", cs "von", cs "der", cs "el",
   cs "la", cs "ibn"]

/-- The class `[\d\s\-().]` of the contact-detection pattern. -/
def isContactCls (c : Char) : Bool :=
  c.isDigit || pyIsSpace c || c == '-' || c == '(' || c == ')' || c == '.'

/-- `\+?\d[\d\s\-().]{7,}` at one position.  When the position holds a
`'+'` the optional branch must consume it (a `'+'` cannot match `\d`),
otherwise the digit must come first. -/
def contactMatchAt : List Char → Bool
  | '+' :: rest =>
    (match rest with
     | c :: r2 => c.isDigit && 7 ≤ (r2.takeWhile isContactCls).length
     | [] => false)
  | c :: rest => c.isDigit && 7 ≤ (rest.takeWhile isContactCls).length
  | [] => false

/-- `re.search` existence for `\+?\d[\d\s\-().]{7,}`. -/
def hasContactRun (line : List Char) : Bool :=
  line.tails.any contactMatchAt

/-- `re.search(r'\d' repeated 5 or more, line)`: a run of ≥ 5 digits. -/
def hasDigitRun5 (line : List Char) : Bool :=
  line.tails.any (fun s => 5 ≤ (s.takeWhile Char.isDigit).length)

/-- The disallowed-character class of main.py line 196
(digits, `@ # $ % ^ & * ( ) + = [ ] ; braces ; | backslash / < >`). -/
def isBadNameChar (c : Char) : Bool :=
  c.isDigit || c == '@' || c == '#' || c == '$' || c == '%' || c == '^' ||
  c == '&' || c == '*' || c == '(' || c == ')' || c == '+' || c == '=' ||
  c == '[' || c == ']' || c == '\x7b' || c == '\x7d' || c == '|' ||
  c == '\\' || c == '/' || c == '<' || c == '>'

/-- The per-word validity check of strategy 1 (main.py lines 188-198).
Empty words are skipped (`if not w: continue`). -/
def validNameWord (w : List Char) : Bool :=
  match w with
  | [] => true
  | c :: _ => (c.isUpper || pyLower w ∈ name_connectors) && !w.any isBadNameChar

/-- The line filter of strategy 1 (main.py lines 168-201). -/
def isValidNameLine (line : List Char) : Bool :=
  let ll := pyLower line
  !(skip_keywords.any (· <:+: ll)) &&
  !(job_title_keywords.any (· <:+: ll)) &&
  !(line.contains '@') && !(hasDigitRun5 line) &&
  !(decide (line.length > 50)) &&
  (let ws := splitWS line
   decide (2 ≤ ws.length) && decide (ws.length ≤ 5) && ws.all validNameWord)

/-- Strategy 2's token walk (main.py lines 214-223): collect leading
capitalised/connector words, stopping at job titles, digits, `@`, `|`,
or — once something has been collected — at the first other word. -/
def nameTokenWalk (acc : List (List Char)) : List (List Char) → List (List Char)
  | [] => acc
  | w :: rest =>
    if job_title_keywords.any (· <:+: pyLower w) then acc
    else if w.contains '@' || w.any Char.isDigit || w.contains '|' then acc
    else if !w.isEmpty && ((w.headD ' ').isUpper || pyLower w ∈ name_connectors) then
      nameTokenWalk (acc ++ [w]) rest
    else if !acc.isEmpty then acc
    else nameTokenWalk acc rest

/-- Strategy 3's merge loop (main.py lines 229-236): merge consecutive
single-word capitalised lines that are not header keywords. -/
def mergeNameLines : List (List Char) → List (List Char)
  | [] => []
  | line :: rest =>
    if line.isEmpty then mergeNameLines rest
    else if !(line.contains ' ') && (line.headD ' ').isUpper &&
            !(skip_keywords.any (· <:+: pyLower line)) then
      line :: mergeNameLines rest
    else []

/-- `extract_name` (main.py lines 134-247). -/
def extract_name (text : List Char) : Option (List Char) :=
  let lines := ((pySplitOn '\n' (text.map (fun c => if c == '|' then '\n' else c))).map
      pyStrip).filter (fun l => !l.isEmpty)
  -- STRATEGY 1: contact anchor
  let contact_idx :=
    match lines.findIdx? (fun l => l.contains '@' || hasContactRun l) with
    | some i => i
    | none => lines.length
  let search_lines := if contact_idx > 0 then lines.take contact_idx else lines.take 5
  match search_lines.find? isValidNameLine with
  | some line => some line
  | none =>
    -- STRATEGY 2: first-chunk token walk
    let first_chunk₀ := lines.headD []
    let first_chunk :=
      if skip_keywords.any (· == pyLower first_chunk₀) then
        (lines.drop 1).headD []
      else first_chunk₀
    let possible_name := nameTokenWalk [] (splitWS first_chunk)
    if 2 ≤ possible_name.length && possible_name.length ≤ 5 then
      some (pyJoin [' '] possible_name)
    else
      -- STRATEGY 3: merge single-word capitalised lines
      let merged_name := mergeNameLines (lines.take 4)
      if 2 ≤ merged_name.length && merged_name.length ≤ 4 then
        some (pyJoin [' '] merged_name)
      else
        -- STRATEGY 4: last resort
        match lines with
        | [] => none
        | first_line :: _ =>
          if 3 < first_line.length && first_line.length < 30 &&
             !(skip_keywords.any (· <:+: pyLower first_line)) then
            some first_line
          else none

/-! ## `extract_education` (main.py lines 330-418) -/

/-- The class `[\w\s&,-]`. -/
def isDegBodyChar (c : Char) : Bool :=
  isWordChar c || pyIsSpace c || c == '&' || c == ',' || c == '-'

/-- The class `[\w\s,-]`. -/
def isDegTailChar (c : Char) : Bool :=
  isWordChar c || pyIsSpace c || c == ',' || c == '-'

/-- `(?:bachelor|master|doctor)` with the optional quote-s suffix
`(?:['’]?s?)?` (equivalent to `['’]?s?`, which generates the same
ordered candidate list). -/
def degreeWordRE : RE :=
  reSeq [reAlt [.lit (cs "bachelor"), .lit (cs "master"), .lit (cs "doctor")],
        .rep (fun c => c == '\'' || c == '’') 0 (some 1),
        .rep (fun c => c == 's') 0 (some 1)]

/-- `b\.?s\.?`-style abbreviation. -/
def abbrevRE (a b : Char) : RE :=
  reSeq [.lit [a], .rep (· == '.') 0 (some 1), .lit [b], .rep (· == '.') 0 (some 1)]

/-- Degree pattern 1 (main.py line 340):
`(?:(?:bachelor|master|doctor)(?:['’]?s?)?|b\.?s\.?|m\.?s\.?|b\.?a\.?|m\.?a\.?|mba|ph\.?d\.?)`
`\s+(?:degree\s+)?(?:of|in)?\s+[\w\s&,-]+`
`(?:university|college|institute|school|polytechnic)[\w\s,-]*`. -/
def degPattern1 : RE :=
  reSeq [reAlt [degreeWordRE, abbrevRE 'b' 's', abbrevRE 'm' 's', abbrevRE 'b' 'a',
              abbrevRE 'm' 'a', .lit (cs "mba"),
              reSeq [.lit (cs "ph"), .rep (· == '.') 0 (some 1), .lit ['d'],
                    .rep (· == '.') 0 (some 1)]],
        .rep pyIsSpace 1 none,
        .opt (reSeq [.lit (cs "degree"), .rep pyIsSpace 1 none]),
        .opt (reAlt [.lit (cs "of"), .lit (cs "in")]),
        .rep pyIsSpace 1 none,
        .rep isDegBodyChar 1 none,
        reAlt [.lit (cs "university"), .lit (cs "college"), .lit (cs "institute"),
              .lit (cs "school"), .lit (cs "polytechnic")],
        .rep isDegTailChar 0 none]

/-- Degree pattern 2 (main.py line 343):
`(?:bachelor|master|doctor)(?:['’]?s?)?\s+(?:degree\s+)?(?:of|in)\s+[\w\s&,-]+`. -/
def degPattern2 : RE :=
  reSeq [degreeWordRE,
        .rep pyIsSpace 1 none,
        .opt (reSeq [.lit (cs "degree"), .rep pyIsSpace 1 none]),
        reAlt [.lit (cs "of"), .lit (cs "in")],
        .rep pyIsSpace 1 none,
        .rep isDegBodyChar 1 none]

/-- Degree pattern 3 (main.py line 346):
`(?:b\.?s\.?|m\.?s\.?|b\.?a\.?|m\.?a\.?)\s+in\s+[\w\s&,-]+`. -/
def degPattern3 : RE :=
  reSeq [reAlt [abbrevRE 'b' 's', abbrevRE 'm' 's', abbrevRE 'b' 'a', abbrevRE 'm' 'a'],
        .rep pyIsSpace 1 none, .lit (cs "in"), .rep pyIsSpace 1 none,
        .rep isDegBodyChar 1 none]

def degree_patterns : List RE := [degPattern1, degPattern2, degPattern3]

/-- `re.finditer`: all non-overlapping matches, scanning left to right
and resuming after each match.  Every match of the degree patterns is
nonempty, so each step consumes at least one character; the fuel
`s.length + 1` therefore never runs out. -/
def finditerGo (m : Option Char → List Char → Option Nat) :
    Nat → Option Char → List Char → Nat → List (Nat × Nat)
  | 0, _, _, _ => []
  | fuel + 1, prev, s, base =>
    match searchFrom m prev s 0 with
    | none => []
    | some (i, n) =>
      let step := i + max n 1
      (base + i, n) ::
        finditerGo m fuel (prevAfter prev s step) (s.drop step) (base + step)

/-- `re.finditer(pattern, t)` as a list of `(start, length)` spans. -/
def finditer (r : RE) (t : List Char) : List (Nat × Nat) :=
  finditerGo (reMatcher r) (t.length + 1) none t 0

/-- Word set of a string: `set(s.split())`. -/
def wordSet (s : List Char) : Finset (List Char) :=
  (splitWS s).toFinset

/-- The duplicate test of the education dedup loop
(main.py lines 391-413) of candidate `d` against one retained entry
`u`: a case-insensitive substring, or word overlap above 60 % of the
retained entry's word count.  `similarity > 0.6` is decided exactly by
cross-multiplication (`5·|inter| > 3·|u|`). -/
def isDupAgainst (d u : List Char) : Bool :=
  let dl := pyLower d
  let ul := pyLower u
  if dl <:+: ul then true
  else
    let dw := wordSet dl
    let uw := wordSet ul
    if dw = ∅ || uw = ∅ then false
    else 5 * (dw ∩ uw).card > 3 * uw.card

/-- Stable insertion (by descending length) used to model Python's
stable `list.sort(key=len, reverse=True)`: an element is placed after
all existing elements of length ≥ its own. -/
def insertByLenDesc (x : List Char) : List (List Char) → List (List Char)
  | [] => [x]
  | y :: ys => if y.length < x.length then x :: y :: ys else y :: insertByLenDesc x ys

/-- Python's stable `sort(key=len, reverse=True)`. -/
def sortByLenDesc (l : List (List Char)) : List (List Char) :=
  l.foldl (fun acc x => insertByLenDesc x acc) []

/-- The greedy dedup loop of `extract_education`
(main.py lines 387-416): keep a candidate iff it is not a duplicate of
any already-kept entry. -/
def dedupStep (uniq : List (List Char)) (d : List Char) : List (List Char) :=
  if uniq.any (isDupAgainst d) then uniq else uniq ++ [d]

/-- Education dedup (main.py lines 383-418): sort by length descending
(stable), greedily filter near-duplicates, return the first 3. -/
def dedup_degrees (degrees : List (List Char)) : List (List Char) :=
  ((sortByLenDesc degrees).foldl dedupStep []).take 3

/-- The fallback line filter of main.py lines 366-381. -/
def educationFallback (text : List Char) : List (List Char) :=
  let degree_keywords :=
    [cs "bachelor", cs "master", cs "phd", cs "doctorate", cs "bsc", cs "msc",
     cs "mba", cs "degree in"]
  ((pySplitOn '\n' text).map pyStrip).filterMap
    (fun lineClean =>
      let lineLower := pyLower lineClean
      if lineClean.length < 10 || lineClean.length > 150 then none
      else if degree_keywords.any (· <:+: lineLower) then
        if lineLower ∈ [cs "education", cs "education history",
                        cs "academic background"] then none
        else some lineClean
      else none)

/-- `extract_education` (main.py lines 330-418). -/
def extract_education (text : List Char) : List (List Char) :=
  let textLower := pyLower text
  let regexDegrees :=
    degree_patterns.flatMap
      (fun p =>
        (finditer p textLower).filterMap
          (fun span =>
            let matchText := pyStrip (sliceOf text span)
            if 10 < matchText.length && matchText.length < 100 then
              some (collapseWS matchText)
            else none))
  let degrees := if regexDegrees.isEmpty then educationFallback text else regexDegrees
  dedup_degrees degrees

/-! ## `parse_cv_text` (main.py lines 421-431) -/

/-- The structured result record of `parse_cv_text`. -/
structure ParsedProfile where
  name : Option (List Char)
  email : Option (List Char)
  phone : Option (List Char)
  skills : Finset (List Char)
  experience_years : Option Nat
  education : List (List Char)
  raw_text : List Char
deriving DecidableEq

/-- `parse_cv_text` (main.py lines 421-431). -/
def parse_cv_text (text : List Char) : ParsedProfile where
  name := extract_name text
  email := extract_email text
  phone := extract_phone text
  skills := extract_skills text
  experience_years := extract_experience_years text
  education := extract_education text
  raw_text := text.take 500

/-! ## Specification-side definitions

For the email refinement claim, a second definition renders the spec's
words — "a well-formed email token of the shape `local@domain.tld`
(alphanumerics, dots, `%+-_`, domain labels, 2+ letter TLD)" — where a
*token* is a maximal whitespace-delimited chunk of the text. -/

/-- The local part of a well-formed token per the spec: a nonempty
string of alphanumerics, dots and `% + - _` beginning with an
alphanumeric. -/
def localOK (l : List Char) : Bool :=
  !l.isEmpty && l.all isLocalChar && (l.headD '@').isAlphanum

/-- The part of `r` after its last dot. -/
def tldOf (r : List Char) : List Char :=
  (r.reverse.takeWhile (fun c => c != '.')).reverse

/-- The part of `r` before its last dot. -/
def domOf (r : List Char) : List Char :=
  r.take (r.length - (tldOf r).length - 1)

/-- The `domain.tld` part of a well-formed token per the spec: a last
dot must exist, the domain before it is a nonempty string of
alphanumerics, dots and hyphens, and the TLD after it consists of at
least two letters. -/
def domTldOK (r : List Char) : Bool :=
  decide ((tldOf r).length < r.length) &&
  !(domOf r).isEmpty && (domOf r).all isDomChar &&
  decide (2 ≤ (tldOf r).length) && (tldOf r).all Char.isAlpha

/-- The spec's well-formed email token: `local@domain.tld` (the split
is at the first `'@'`; a second `'@'` would land in the domain part and
fail its character-class check).  This follows the spec's words, to be
compared with the code's `extract_email`. -/
def isWellFormedEmailToken (tok : List Char) : Bool :=
  match tok.drop (tok.takeWhile (fun c => c != '@')).length with
  | '@' :: r => localOK (tok.takeWhile (fun c => c != '@')) && domTldOK r
  | _ => false

/-- The spec's "text containing a well-formed email token". -/
def containsWellFormedEmailToken (t : List Char) : Bool :=
  (splitWS t).any isWellFormedEmailToken

/-! ## Proof infrastructure: membership in insert-if folds

Each layer of `extract_skills` folds over a list, optionally inserting
one formatted element per visited item; `optInsertFold` is that common
shape, about which one membership lemma is proved and reused. -/

def optInsertFold (g : α → Option (List Char)) (l : List α)
    (s0 : Finset (List Char)) : Finset (List Char) :=
  l.foldl
    (fun s a =>
      match g a with
      | some y => insert y s
      | none => s)
    s0

/-! ## Canonical whitespace (proof infrastructure for the normalizer) -/

/-- Every whitespace character of the string is a plain blank. -/
def SpacesAreBlanks (l : List Char) : Prop :=
  ∀ c ∈ l, pyIsSpace c = true → c = ' '

/-- No two adjacent characters are both whitespace. -/
def NoTwoSpaces (l : List Char) : Prop :=
  l.Chain' (fun a b => pyIsSpace a = false ∨ pyIsSpace b = false)

/-! # Theorems -/

/-! ## C1 — `extract_name` on `"##invalid###"` -/

/-- C1 counterexample: the claim says `extract_name` returns an absent
name (None) for the input `"##invalid###"`; in fact the last-resort
strategy 4 returns the first line itself (its length 12 lies strictly
between 3 and 30 and it contains no header keyword), so the result is
not `none`. -/
theorem C1_counterexample : extract_name (cs "##invalid###") ≠ none := by
  decide

/-- C1 amended: on the input `"##invalid###"` `extract_name` raises no
exception (it is a total function) but the name is not absent: the
last-resort strategy returns the line `"##invalid###"` itself. -/
theorem C1_amended : extract_name (cs "##invalid###") = some (cs "##invalid###") := by
  decide

/-! ## C2 — idempotence of the normalizer -/

/-- C2 counterexample: `normalize` is not idempotent.  On `"a|b"` the
first pass yields `"a | b"` and the second pass splits at the pipe
again, producing `"a  |  b"` (the single spaces around the pipe are
kept by the split and another `" | "` is inserted). -/
theorem C2_counterexample :
    normalize_text (normalize_text (cs "a|b")) ≠ normalize_text (cs "a|b") := by
  decide

/-! ## C3 — education dedup -/

/-- C3 counterexample: a candidate set in which the word set of the
shorter string is 100 % (hence ≥ 90 %) contained in the longer one's,
yet both strings are retained by `extract_education`: the overlap is
measured against the *longer* entry's word count (2 of 6 words ≤ 60 %),
so the shorter entry is not dropped. -/
theorem C3_counterexample :
    extract_education
        (cs "mba accounting finance economics marketing management\nmba finance") =
      [cs "mba accounting finance economics marketing management", cs "mba finance"] ∧
    wordSet (pyLower (cs "mba finance")) ⊆
      wordSet (pyLower (cs "mba accounting finance economics marketing management")) ∧
    (cs "mba finance").length <
      (cs "mba accounting finance economics marketing management").length := by
  decide

/-! ## C4 — `extract_email` and well-formed tokens -/

/-- C4 counterexample: the text `"a@b.c|d"` contains no well-formed
email token (its only whitespace-token has a 1-letter TLD followed by a
pipe), so by the claim `extract_email` should return `none`; but the
TLD character class of the code's pattern is `[A-Z|a-z]`, which
literally contains `'|'`, so the code returns the whole string. -/
theorem C4_counterexample :
    containsWellFormedEmailToken (cs "a@b.c|d") = false ∧
    extract_email (cs "a@b.c|d") = some (cs "a@b.c|d") := by
  decide

/-! ## C6 — order-independence of `extract_skills` -/

/-- C6 counterexample: the one-token-per-word permutation
`"machine learning"` ↦ `"learning machine"` changes the extracted
skill set — the two-word vocabulary entry `machine learning` only
matches when its words are adjacent in order. -/
theorem C6_counterexample :
    List.Perm (splitWS (cs "machine learning")) (splitWS (cs "learning machine")) ∧
    extract_skills (cs "machine learning") ≠ extract_skills (cs "learning machine") := by
  decide

/-! ## C7 — output casing of skills -/

/-- C7 counterexample: `node.js` is a symbol-bearing
`special_pattern_skills` entry but is *not* in `special_case_skills`,
so it is rendered by `str.title()` as `"Node.Js"`, not in its literal
form, contradicting the claim. -/
theorem C7_counterexample :
    cs "Node.Js" ∈ extract_skills (cs "node.js") ∧
    cs "node.js" ∉ extract_skills (cs "node.js") := by
  decide

/-! ## C8 — `extract_experience_years` priority semantics -/

/-- C8: `extract_experience_years` lowers the text and tries the three
patterns in their fixed order, returning the captured integer of the
first (leftmost) match of the highest-priority matching pattern; when
no pattern matches it returns `none` (the result is a `Nat`, hence
non-negative, and no aggregation over mentions occurs).  The concrete
conjunct shows priority beating textual position: in
`"Experience: 10 years. Also 7 years of experience"` pattern 1 matches
the later mention and yields 7 even though pattern 2 would match the
earlier `10`. -/
theorem C8_experience_priority :
    (∀ t n, searchCapture expPat1At (pyLower t) = some n →
      extract_experience_years t = some n) ∧
    (∀ t n, searchCapture expPat1At (pyLower t) = none →
      searchCapture expPat2At (pyLower t) = some n →
      extract_experience_years t = some n) ∧
    (∀ t n, searchCapture expPat1At (pyLower t) = none →
      searchCapture expPat2At (pyLower t) = none →
      searchCapture expPat3At (pyLower t) = some n →
      extract_experience_years t = some n) ∧
    (∀ t, searchCapture expPat1At (pyLower t) = none →
      searchCapture expPat2At (pyLower t) = none →
      searchCapture expPat3At (pyLower t) = none →
      extract_experience_years t = none) ∧
    extract_experience_years (cs "Experience: 10 years. Also 7 years of experience") =
      some 7 ∧
    searchCapture expPat2At
        (pyLower (cs "Experience: 10 years. Also 7 years of experience")) =
      some 10 := by
  refine ⟨?_, ?_, ?_, ?_, by decide, by decide⟩
  · intro t n h1
    simp [extract_experience_years, h1]
  · intro t n h1 h2
    simp [extract_experience_years, h1, h2]
  · intro t n h1 h2 h3
    simp [extract_experience_years, h1, h2, h3]
  · intro t h1 h2 h3
    simp [extract_experience_years, h1, h2, h3]

/-- C8 witness: the priority rule applied at a concrete input. -/
theorem C8_experience_priority_witness :
    extract_experience_years (cs "9 years of experience") = some 9 :=
  C8_experience_priority.1 (cs "9 years of experience") 9 (by decide)

/-! ## C9 — totality of the core -/

/-- C9: the core is total — every extractor and `parse_cv_text` are
(total) functions in this embedding, mirroring that the Python core
raises on no string input; a missing field is represented by `none`
(name, email, phone, experience years) or an empty collection (skills,
education), as the evaluation on the empty string shows, and
`parse_cv_text` is exactly the aggregation of the six extractors plus
the 500-character preview. -/
theorem C9_totality :
    (∀ t, parse_cv_text t =
      ⟨extract_name t, extract_email t, extract_phone t, extract_skills t,
       extract_experience_years t, extract_education t, t.take 500⟩) ∧
    parse_cv_text [] = ⟨none, none, none, ∅, none, [], []⟩ := by
  exact ⟨fun t => rfl, by decide⟩

/-- C9 witness: the aggregation equation at a concrete input. -/
theorem C9_totality_witness :
    parse_cv_text (cs "hi") =
      ⟨extract_name (cs "hi"), extract_email (cs "hi"), extract_phone (cs "hi"),
       extract_skills (cs "hi"), extract_experience_years (cs "hi"),
       extract_education (cs "hi"), (cs "hi").take 500⟩ :=
  C9_totality.1 (cs "hi")

/-! ## C10 — contact extractors return verbatim substrings -/

/-- Any slice of a text is one of its contiguous infixes. -/
theorem sliceOf_infix (t : List Char) (p : Nat × Nat) : sliceOf t p <:+: t :=
  ⟨t.take p.1, (t.drop p.1).drop p.2, by
    simp [sliceOf]⟩

/-- C10: whenever `extract_email` or `extract_phone` returns a value,
that value is a verbatim contiguous substring (infix) of the input
text: both extractors return `match.group(0)`, a slice of the input,
never reformatted data. -/
theorem C10_verbatim_substring :
    (∀ t s, extract_email t = some s → s <:+: t) ∧
    (∀ t s, extract_phone t = some s → s <:+: t) := by
  constructor
  · intro t s h
    unfold extract_email at h
    cases hr : reSearch emailMatchAt t with
    | none => rw [hr] at h; exact Option.noConfusion h
    | some p =>
      rw [hr] at h
      obtain rfl : s = sliceOf t p := (Option.some.inj h).symm
      exact sliceOf_infix t p
  · intro t s h
    unfold extract_phone at h
    cases hr : phone_patterns.firstM (fun p => reSearch (reMatcher p) t) with
    | none => rw [hr] at h; exact Option.noConfusion h
    | some p =>
      rw [hr] at h
      obtain rfl : s = sliceOf t p := (Option.some.inj h).symm
      exact sliceOf_infix t p

/-- C10 witness: at a concrete input both extractors return infixes. -/
theorem C10_verbatim_substring_witness :
    cs "a@b.com" <:+: cs "see a@b.com or +973 33430100" ∧
    cs "+973 33430100" <:+: cs "see a@b.com or +973 33430100" :=
  ⟨C10_verbatim_substring.1 (cs "see a@b.com or +973 33430100") (cs "a@b.com")
      (by decide),
   C10_verbatim_substring.2 (cs "see a@b.com or +973 33430100") (cs "+973 33430100")
      (by decide)⟩

/-! ## C5 — fuzzy matching: no false positives, length and score gates -/

/-- The best-match fold only ever holds a pair `(sk, ratio word sk)`
with `sk` drawn from the scanned vocabulary. -/
theorem fuzzyFold_inv (w : List Char) :
    ∀ (l : List (List Char)) (acc : Option (List Char × (Nat × Nat))),
      (∀ x ∈ l, x ∈ SKILLS_LIST) →
      (∀ p, acc = some p → p.1 ∈ SKILLS_LIST ∧ p.2 = ratioNumDen w p.1) →
      ∀ p, l.foldl (fuzzyFold w) acc = some p →
        p.1 ∈ SKILLS_LIST ∧ p.2 = ratioNumDen w p.1 := by
  intro l
  induction l with
  | nil => intro acc _ hacc p hp; exact hacc p hp
  | cons a l ih =>
    intro acc hl hacc p hp
    rw [List.foldl_cons] at hp
    refine ih _ (fun x hx => hl x (List.mem_cons_of_mem a hx)) ?_ p hp
    intro q hq
    unfold fuzzyFold at hq
    cases hacc' : acc with
    | none =>
      rw [hacc'] at hq
      simp only at hq
      cases hq
      exact ⟨hl a (List.mem_cons_self a l), rfl⟩
    | some b =>
      rw [hacc'] at hq
      simp only at hq
      split at hq
      · cases hq
        exact ⟨hl a (List.mem_cons_self a l), rfl⟩
      · exact hacc q (hacc'.trans (congrArg some (Option.some.inj hq)))

/-- `fuzzyBest` returns only vocabulary entries whose exact rational
`fuzz.ratio` score is at least 85 (`200·LCS/(|w|+|sk|) ≥ 85`, i.e.
`40·LCS ≥ 17·(|w|+|sk|)`). -/
theorem fuzzyBest_spec (w sk : List Char) (h : fuzzyBest w = some sk) :
    sk ∈ SKILLS_LIST ∧ 17 * (w.length + sk.length) ≤ 40 * lcsLen w sk := by
  unfold fuzzyBest at h
  cases hb : SKILLS_LIST.foldl (fuzzyFold w) none with
  | none => rw [hb] at h; exact Option.noConfusion h
  | some p =>
    obtain ⟨sk', r⟩ := p
    rw [hb] at h
    simp only at h
    split at h
    · cases h
      have hinv := fuzzyFold_inv w SKILLS_LIST none (fun x hx => hx)
        (fun p hp => Option.noConfusion hp) (sk, r) hb
      obtain ⟨hmem, hr⟩ := hinv
      have hr' : r = ratioNumDen w sk := hr
      refine ⟨hmem, ?_⟩
      rename_i hscore
      rw [hr'] at hscore
      simp only [ratioNumDen] at hscore
      omega
    · exact Option.noConfusion h

/-- C5: fuzzy skill matching produces no false positive on the
unrelated-words text — `extract_skills` returns the empty set on
`"I enjoy playing guitar and reading books about history"` — and in
general the fuzzy layer fires only for tokens of length at least 4
(shorter tokens leave the accumulated set unchanged) whose best
vocabulary similarity score is at least 85 on the 0–100 scale
(`40·LCS(w, sk) ≥ 17·(|w|+|sk|)` for the accepted best match `sk`). -/
theorem C5_no_fuzzy_false_positives :
    extract_skills (cs "I enjoy playing guitar and reading books about history") = ∅ ∧
    (∀ mw s w, w.length < 4 → fuzzyStep mw s w = s) ∧
    (∀ w sk, fuzzyBest w = some sk →
      sk ∈ SKILLS_LIST ∧ 17 * (w.length + sk.length) ≤ 40 * lcsLen w sk) := by
  refine ⟨by decide, ?_, fun w sk h => fuzzyBest_spec w sk h⟩
  intro mw s w h
  unfold fuzzyStep
  have : (decide (w.length < 4) || decide (w ∈ mw)) = true := by
    simp [h]
  simp only [this]
  rfl

/-- C5 witness: the gates applied at concrete inputs — a 3-letter token
never fires, and the accepted match `"guitar" ↛`, `"pythn" → python`
satisfies the score bound. -/
theorem C5_no_fuzzy_false_positives_witness :
    fuzzyStep ∅ ∅ (cs "abc") = ∅ ∧
    (cs "python" ∈ SKILLS_LIST ∧
      17 * ((cs "pythn").length + (cs "python").length) ≤
        40 * lcsLen (cs "pythn") (cs "python")) :=
  ⟨C5_no_fuzzy_false_positives.2.1 ∅ ∅ (cs "abc") (by decide),
   C5_no_fuzzy_false_positives.2.2 (cs "pythn") (cs "python") (by decide)⟩

/-! ## Membership characterizations of the `extract_skills` layers -/

theorem mem_optInsertFold {α : Type} (g : α → Option (List Char)) :
    ∀ (l : List α) (s0 : Finset (List Char)) (x : List Char),
      x ∈ optInsertFold g l s0 ↔ x ∈ s0 ∨ ∃ a ∈ l, g a = some x := by
  intro l
  induction l with
  | nil => intro s0 x; simp [optInsertFold]
  | cons a l ih =>
    intro s0 x
    show x ∈ optInsertFold g l _ ↔ _
    rw [ih]
    cases hg : g a with
    | none =>
      simp only [hg]
      constructor
      · rintro (hx | hx)
        · exact Or.inl hx
        · exact Or.inr ⟨hx.choose, List.mem_cons_of_mem a hx.choose_spec.1,
            hx.choose_spec.2⟩
      · rintro (hx | ⟨b, hb, hbx⟩)
        · exact Or.inl hx
        · rcases List.mem_cons.1 hb with rfl | hb'
          · rw [hg] at hbx; exact Option.noConfusion hbx
          · exact Or.inr ⟨b, hb', hbx⟩
    | some y =>
      simp only [hg, Finset.mem_insert]
      constructor
      · rintro ((rfl | hx) | ⟨b, hb, hbx⟩)
        · exact Or.inr ⟨a, List.mem_cons_self a l, hg⟩
        · exact Or.inl hx
        · exact Or.inr ⟨b, List.mem_cons_of_mem a hb, hbx⟩
      · rintro (hx | ⟨b, hb, hbx⟩)
        · exact Or.inl (Or.inr hx)
        · rcases List.mem_cons.1 hb with rfl | hb'
          · rw [hg] at hbx
            exact Or.inl (Or.inl (Option.some.inj hbx).symm)
          · exact Or.inr ⟨b, hb', hbx⟩

/-- The alias layer as an `optInsertFold`. -/
theorem aliasLayer_eq (ws : List (List Char)) (s0 : Finset (List Char)) :
    aliasLayer ws s0 =
      optInsertFold (fun w => (SKILL_ALIASES.lookup w).map format_skill) ws s0 := by
  unfold aliasLayer optInsertFold
  have h : (fun (s : Finset (List Char)) (w : List Char) =>
        match SKILL_ALIASES.lookup w with
        | some canonical => insert (format_skill canonical) s
        | none => s) =
      (fun (s : Finset (List Char)) (w : List Char) =>
        match (SKILL_ALIASES.lookup w).map format_skill with
        | some y => insert y s
        | none => s) := by
    funext s w
    cases SKILL_ALIASES.lookup w <;> rfl
  rw [h]

/-- The special-pattern layer as an `optInsertFold`. -/
theorem specialLayer_eq (tl : List Char) (s0 : Finset (List Char)) :
    specialLayer tl s0 =
      optInsertFold
        (fun sk => if pyLower sk <:+: tl then some (format_skill sk) else none)
        special_pattern_skills s0 := by
  unfold specialLayer optInsertFold
  have h : (fun (s : Finset (List Char)) (sk : List Char) =>
        if pyLower sk <:+: tl then insert (format_skill sk) s else s) =
      (fun (s : Finset (List Char)) (sk : List Char) =>
        match (if pyLower sk <:+: tl then some (format_skill sk) else none) with
        | some y => insert y s
        | none => s) := by
    funext s sk
    by_cases hin : pyLower sk <:+: tl <;> simp [hin]
  rw [h]

/-- The exact word-boundary layer as an `optInsertFold`. -/
theorem exactLayer_eq (tl : List Char) (s0 : Finset (List Char)) :
    exactLayer tl s0 =
      optInsertFold
        (fun sk =>
          if sk ∈ special_pattern_skills then none
          else if wbSearch tl (pyLower sk) then some (format_skill sk) else none)
        SKILLS_LIST s0 := by
  unfold exactLayer optInsertFold
  have h : (fun (s : Finset (List Char)) (sk : List Char) =>
        if sk ∈ special_pattern_skills then s
        else if wbSearch tl (pyLower sk) then insert (format_skill sk) s else s) =
      (fun (s : Finset (List Char)) (sk : List Char) =>
        match (if sk ∈ special_pattern_skills then none
          else if wbSearch tl (pyLower sk) then some (format_skill sk) else none) with
        | some y => insert y s
        | none => s) := by
    funext s sk
    by_cases hsp : sk ∈ special_pattern_skills
    · simp [hsp]
    · cases hwb : wbSearch tl (pyLower sk) <;> simp [hsp, hwb]
  rw [h]

/-- The fuzzy layer as an `optInsertFold`. -/
theorem fuzzyLayer_eq (ws : List (List Char)) (mw s0 : Finset (List Char)) :
    fuzzyLayer ws mw s0 =
      optInsertFold
        (fun w =>
          if w.length < 4 || w ∈ mw then none
          else if isNoiseWord w then none
          else (fuzzyBest w).map format_skill)
        ws s0 := by
  unfold fuzzyLayer optInsertFold
  have h : fuzzyStep mw =
      (fun (s : Finset (List Char)) (w : List Char) =>
        match (if w.length < 4 || w ∈ mw then none
          else if isNoiseWord w then none
          else (fuzzyBest w).map format_skill) with
        | some y => insert y s
        | none => s) := by
    funext s w
    unfold fuzzyStep
    cases hc : (decide (w.length < 4) || decide (w ∈ mw))
    · cases hn : isNoiseWord w
      · cases hf : fuzzyBest w <;> simp [hc, hn, hf]
      · simp [hc, hn]
    · simp [hc]
  rw [h]

/-- A successful association-list lookup returns one of the stored
values. -/
theorem lookup_mem_values {l : List (List Char × List Char)} {w c : List Char}
    (h : l.lookup w = some c) : c ∈ l.map Prod.snd := by
  induction l with
  | nil => exact Option.noConfusion h
  | cons p rest ih =>
    obtain ⟨k, v⟩ := p
    rw [List.lookup] at h
    cases hk : w == k with
    | true => rw [hk] at h; exact List.mem_cons.2 (Or.inl (Option.some.inj h).symm)
    | false => rw [hk] at h; exact List.mem_cons_of_mem _ (ih h)

/-- Every element of `extract_skills` is `format_skill` of a vocabulary
entry. -/
theorem extract_skills_mem_format {t x : List Char} (hx : x ∈ extract_skills t) :
    ∃ sk ∈ SKILLS_LIST, x = format_skill sk := by
  have halias : ∀ p ∈ SKILL_ALIASES.map Prod.snd, p ∈ SKILLS_LIST := by decide
  have hspec : ∀ p ∈ special_pattern_skills, p ∈ SKILLS_LIST := by decide
  simp only [extract_skills] at hx
  rw [fuzzyLayer_eq, mem_optInsertFold] at hx
  rcases hx with hx | ⟨w, _, hw⟩
  · rw [exactLayer_eq, mem_optInsertFold] at hx
    rcases hx with hx | ⟨sk, hsk, hskx⟩
    · rw [specialLayer_eq, mem_optInsertFold] at hx
      rcases hx with hx | ⟨sk, hsk, hskx⟩
      · rw [aliasLayer_eq, mem_optInsertFold] at hx
        rcases hx with hx | ⟨w, _, hw⟩
        · exact absurd hx (Finset.not_mem_empty x)
        · cases hl : SKILL_ALIASES.lookup w with
          | none => rw [hl] at hw; exact Option.noConfusion hw
          | some c =>
            rw [hl] at hw
            exact ⟨c, halias c (lookup_mem_values hl),
              (Option.some.inj hw).symm⟩
      · split at hskx
        · exact ⟨sk, hspec sk hsk, (Option.some.inj hskx).symm⟩
        · exact Option.noConfusion hskx
    · split at hskx
      · exact Option.noConfusion hskx
      · split at hskx
        · exact ⟨sk, hsk, (Option.some.inj hskx).symm⟩
        · exact Option.noConfusion hskx
  · split at hw
    · exact Option.noConfusion hw
    · split at hw
      · exact Option.noConfusion hw
      · cases hf : fuzzyBest w with
        | none => rw [hf] at hw; exact Option.noConfusion hw
        | some sk =>
          rw [hf] at hw
          exact ⟨sk, (fuzzyBest_spec w sk hf).1, (Option.some.inj hw).symm⟩

/-! ## C7 — amended casing theorem -/

/-- C7 amended: every emitted skill is `format_skill` of some vocabulary
entry, and `format_skill` keeps `c#`, `c++`, `.net`, `ci/cd` and
`ui/ux` literal, renders `nlp` upper-case as `NLP`, renders `node.js`
in title case as `Node.Js` (it is not in the special-casing set), and
renders every other vocabulary entry in Python title case. -/
theorem C7_amended :
    (∀ t x, x ∈ extract_skills t → ∃ sk ∈ SKILLS_LIST, x = format_skill sk) ∧
    (∀ sk ∈ [cs "c#", cs "c++", cs ".net", cs "ci/cd", cs "ui/ux"],
      format_skill sk = sk) ∧
    format_skill (cs "nlp") = cs "NLP" ∧
    format_skill (cs "node.js") = cs "Node.Js" ∧
    (∀ sk ∈ SKILLS_LIST, pyLower sk ∉ special_case_skills →
      format_skill sk = pyTitle sk) := by
  refine ⟨fun t x hx => extract_skills_mem_format hx, by decide, by decide, by decide, ?_⟩
  intro sk _ hnotin
  unfold format_skill
  rw [if_neg hnotin]

/-- C7 witness: the characterization applied at a concrete input. -/
theorem C7_amended_witness :
    (∃ sk ∈ SKILLS_LIST, cs "Python" = format_skill sk) ∧
    format_skill (cs "python") = pyTitle (cs "python") :=
  ⟨C7_amended.1 (cs "python") (cs "Python") (by decide),
   C7_amended.2.2.2.2 (cs "python") (by decide) (by decide)⟩

/-! ## C2 — amended idempotence of the normalizer -/

/-- Every character the collapse emits is a blank or a non-whitespace
character of the input. -/
theorem mem_collapseGo :
    ∀ (flag : Bool) (l : List Char) (c : Char), c ∈ collapseGo flag l →
      c = ' ' ∨ (c ∈ l ∧ pyIsSpace c = false) := by
  intro flag l
  induction l generalizing flag with
  | nil => intro c hc; exact absurd hc (List.not_mem_nil c)
  | cons d rest ih =>
    intro c hc
    unfold collapseGo at hc
    by_cases hd : pyIsSpace d = true
    · rw [if_pos hd] at hc
      cases flag with
      | true =>
        rcases ih true c hc with h | ⟨h1, h2⟩
        · exact Or.inl h
        · exact Or.inr ⟨List.mem_cons_of_mem d h1, h2⟩
      | false =>
        rcases List.mem_cons.1 hc with rfl | hc'
        · exact Or.inl rfl
        · rcases ih true c hc' with h | ⟨h1, h2⟩
          · exact Or.inl h
          · exact Or.inr ⟨List.mem_cons_of_mem d h1, h2⟩
    · rw [if_neg hd] at hc
      rcases List.mem_cons.1 hc with rfl | hc'
      · exact Or.inr ⟨List.mem_cons_self _ _, Bool.not_eq_true _ ▸ hd⟩
      · rcases ih false c hc' with h | ⟨h1, h2⟩
        · exact Or.inl h
        · exact Or.inr ⟨List.mem_cons_of_mem d h1, h2⟩

/-- After the in-run flag is set, the next emitted character is not
whitespace. -/
theorem head_collapseGo_true :
    ∀ (l : List Char) (c : Char), (collapseGo true l).head? = some c →
      pyIsSpace c = false := by
  intro l
  induction l with
  | nil => intro c hc; exact Option.noConfusion hc
  | cons d rest ih =>
    intro c hc
    unfold collapseGo at hc
    by_cases hd : pyIsSpace d = true
    · rw [if_pos hd] at hc
      exact ih c hc
    · rw [if_neg hd] at hc
      cases hc
      exact Bool.not_eq_true _ ▸ hd

/-- The collapse never emits two adjacent whitespace characters. -/
theorem noTwoSpaces_collapseGo : ∀ (flag : Bool) (l : List Char),
    NoTwoSpaces (collapseGo flag l) := by
  intro flag l
  induction l generalizing flag with
  | nil => exact List.chain'_nil
  | cons d rest ih =>
    unfold collapseGo
    by_cases hd : pyIsSpace d = true
    · rw [if_pos hd]
      cases flag with
      | true => exact ih true
      | false =>
        refine List.chain'_cons'.2 ⟨?_, ih true⟩
        intro y hy
        exact Or.inr (head_collapseGo_true rest y hy)
    · rw [if_neg hd]
      refine List.chain'_cons'.2 ⟨?_, ih false⟩
      intro y _
      exact Or.inl (Bool.not_eq_true _ ▸ hd)

/-- On a string whose head is not whitespace (or which is empty), the
in-run flag is irrelevant. -/
theorem collapseGo_true_eq_false (l : List Char)
    (h : ∀ c, l.head? = some c → pyIsSpace c = false) :
    collapseGo true l = collapseGo false l := by
  cases l with
  | nil => rfl
  | cons d rest =>
    have hd := h d rfl
    unfold collapseGo
    rw [if_neg (by simp [hd]), if_neg (by simp [hd])]

/-- On a canonical string the collapse is the identity. -/
theorem collapseGo_eq_self : ∀ (l : List Char),
    SpacesAreBlanks l → NoTwoSpaces l → collapseGo false l = l := by
  intro l
  induction l with
  | nil => intro _ _; rfl
  | cons d rest ih =>
    intro hb hn
    have hrest_b : SpacesAreBlanks rest := fun c hc => hb c (List.mem_cons_of_mem d hc)
    have hrest_n : NoTwoSpaces rest := hn.tail
    unfold collapseGo
    by_cases hd : pyIsSpace d = true
    · rw [if_pos hd]
      have hd' : d = ' ' := hb d (List.mem_cons_self d rest) hd
      have hhead : ∀ c, rest.head? = some c → pyIsSpace c = false := by
        intro c hc
        cases rest with
        | nil => exact Option.noConfusion hc
        | cons e rest' =>
          cases hc
          rcases (List.chain'_cons'.1 hn).1 c rfl with h | h
          · rw [hd] at h; exact Bool.noConfusion h
          · exact h
      rw [collapseGo_true_eq_false rest hhead, ih hrest_b hrest_n, hd']
      simp
    · rw [if_neg hd]
      rw [ih hrest_b hrest_n]

/-- `pyStrip` keeps canonicity (its result is an infix). -/
theorem pyStrip_infix_self (l : List Char) : pyStrip l <:+: l := by
  unfold pyStrip
  obtain ⟨s, hs⟩ := List.rdropWhile_prefix pyIsSpace (l.dropWhile pyIsSpace)
  obtain ⟨t, ht⟩ := List.dropWhile_suffix (l := l) pyIsSpace
  exact ⟨t, s, by rw [List.append_assoc, hs, ht]⟩

/-- Stripping is idempotent. -/
theorem pyStrip_idempotent (l : List Char) : pyStrip (pyStrip l) = pyStrip l := by
  unfold pyStrip
  have h1 : (((l.dropWhile pyIsSpace).rdropWhile pyIsSpace).dropWhile pyIsSpace) =
      (l.dropWhile pyIsSpace).rdropWhile pyIsSpace := by
    cases hX : (l.dropWhile pyIsSpace).rdropWhile pyIsSpace with
    | nil => simp
    | cons a rest =>
      have hs' := List.rdropWhile_prefix pyIsSpace (l.dropWhile pyIsSpace)
      rw [hX] at hs'
      obtain ⟨s, hs⟩ := hs'
      have hhead : (l.dropWhile pyIsSpace).head? = some a := by rw [← hs]; rfl
      have hna := List.head?_dropWhile_not pyIsSpace l
      rw [hhead] at hna
      simp [List.dropWhile_cons, hna]
  rw [h1, List.rdropWhile_idempotent]

/-- Canonicity transfers to any infix, in particular to the strip. -/
theorem canon_of_infix {l m : List Char} (h : m <:+: l)
    (hb : SpacesAreBlanks l) (hn : NoTwoSpaces l) :
    SpacesAreBlanks m ∧ NoTwoSpaces m :=
  ⟨fun c hc => hb c (h.subset hc), hn.infix h⟩

/-- On pipe-free input, `normalize_text` is collapse-then-strip (the
pipe split produces a single part and the rejoin restores it). -/
theorem normalize_eq_strip_collapse {t : List Char} (h : '|' ∉ t) :
    normalize_text t = pyStrip (collapseWS t) := by
  unfold normalize_text pySplitOn pyJoin
  have hpipe : '|' ∉ pyStrip (collapseWS t) := by
    intro hmem
    have hmem' := (pyStrip_infix_self (collapseWS t)).subset hmem
    rcases mem_collapseGo false t '|' hmem' with h' | ⟨h1, _⟩
    · exact absurd h' (by decide)
    · exact h h1
  have hsplit : (pyStrip (collapseWS t)).splitOn '|' = [pyStrip (collapseWS t)] := by
    show (pyStrip (collapseWS t)).splitOnP (· == '|') = _
    refine List.splitOnP_eq_single _ _ ?_
    intro x hx hxp
    exact hpipe (by rwa [show x = '|' from by simpa using hxp] at hx)
  show [' ', '|', ' '].intercalate ((pyStrip (collapseWS t)).splitOn '|') =
    pyStrip (collapseWS t)
  rw [hsplit]
  simp [List.intercalate]

/-- C2 amended: the normalizer is idempotent on every string that
contains no pipe character (the counterexample `"a|b"` shows the
original claim fails as soon as a pipe is present: the rejoin with
`" | "` pads an already-padded pipe again). -/
theorem C2_amended (t : List Char) (h : '|' ∉ t) :
    normalize_text (normalize_text t) = normalize_text t := by
  rw [normalize_eq_strip_collapse h]
  have hb : SpacesAreBlanks (collapseWS t) := by
    intro c hc hs
    rcases mem_collapseGo false t c hc with h' | ⟨_, h2⟩
    · exact h'
    · rw [hs] at h2; exact Bool.noConfusion h2
  have hn : NoTwoSpaces (collapseWS t) := noTwoSpaces_collapseGo false t
  obtain ⟨hb', hn'⟩ := canon_of_infix (pyStrip_infix_self (collapseWS t)) hb hn
  have hpipe2 : '|' ∉ pyStrip (collapseWS t) := by
    intro hmem
    have hmem' := (pyStrip_infix_self (collapseWS t)).subset hmem
    rcases mem_collapseGo false t '|' hmem' with h' | ⟨h1, _⟩
    · exact absurd h' (by decide)
    · exact h h1
  rw [normalize_eq_strip_collapse hpipe2]
  rw [show collapseWS (pyStrip (collapseWS t)) = pyStrip (collapseWS t) from
    collapseGo_eq_self _ hb' hn']
  exact pyStrip_idempotent _

/-- C2 witness: idempotence applied at a concrete pipe-free input. -/
theorem C2_amended_witness :
    normalize_text (normalize_text (cs "  hello\n\nworld  ")) =
      normalize_text (cs "  hello\n\nworld  ") :=
  C2_amended (cs "  hello\n\nworld  ") (by decide)

/-! ## C3 — amended dedup invariant -/

/-- The greedy dedup fold keeps the "no retained entry is a duplicate of
an earlier one" invariant: a candidate is appended only after testing
negative against every entry already kept. -/
theorem dedupFold_pairwise :
    ∀ (l acc : List (List Char)),
      List.Pairwise (fun u d => isDupAgainst d u = false) acc →
      List.Pairwise (fun u d => isDupAgainst d u = false) (l.foldl dedupStep acc) := by
  intro l
  induction l with
  | nil => intro acc h; exact h
  | cons d l ih =>
    intro acc h
    rw [List.foldl_cons]
    refine ih _ ?_
    unfold dedupStep
    cases han : acc.any (isDupAgainst d) with
    | true => simp only [han, if_true]; exact h
    | false =>
      simp only [han, Bool.false_eq_true, if_false]
      rw [List.pairwise_append]
      refine ⟨h, List.pairwise_singleton _ _, ?_⟩
      intro u hu b hb
      rcases List.mem_singleton.1 hb with rfl
      have := List.any_eq_false.1 han
      exact Bool.eq_false_iff.2 (this u hu)

/-- C3 amended: in the list returned by the education dedup, whenever
`u` is retained before `d` (so `u` is the longer-or-equal entry), `d`
is not a case-insensitive substring of `u`, and the word overlap of `d`
with `u` is at most 60 % of `u`'s word count (the threshold is measured
against the earlier/longer entry's word set, not the shorter's — which
is why a fully-contained shorter entry can still be retained, as the
counterexample shows). -/
theorem C3_amended :
    ∀ (degrees : List (List Char)) (u d : List Char),
      List.Sublist [u, d] (dedup_degrees degrees) →
      ¬(pyLower d <:+: pyLower u) ∧
      (wordSet (pyLower d) ≠ ∅ → wordSet (pyLower u) ≠ ∅ →
        5 * ((wordSet (pyLower d)) ∩ (wordSet (pyLower u))).card ≤
          3 * (wordSet (pyLower u)).card) := by
  intro degrees u d hsub
  have hpw : List.Pairwise (fun a b => isDupAgainst b a = false)
      (dedup_degrees degrees) := by
    unfold dedup_degrees
    exact List.Pairwise.sublist (List.take_sublist 3 _)
      (dedupFold_pairwise _ [] List.Pairwise.nil)
  have h2 := List.Pairwise.sublist hsub hpw
  have hud : isDupAgainst d u = false :=
    (List.pairwise_cons.1 h2).1 d (List.mem_singleton_self d)
  simp only [isDupAgainst] at hud
  by_cases hinf : pyLower d <:+: pyLower u
  · rw [if_pos hinf] at hud; exact Bool.noConfusion hud
  · refine ⟨hinf, ?_⟩
    intro hdw huw
    rw [if_neg hinf] at hud
    have hcond : (decide (wordSet (pyLower d) = ∅) ||
        decide (wordSet (pyLower u) = ∅)) = false := by
      simp [hdw, huw]
    rw [hcond] at hud
    simp only [Bool.false_eq_true, if_false, decide_eq_false_iff_not] at hud
    omega

/-- C3 witness: the invariant applied to a concrete candidate list in
which both entries are retained. -/
theorem C3_amended_witness :
    ¬(pyLower (cs "x") <:+: pyLower (cs "alpha beta")) ∧
    (wordSet (pyLower (cs "x")) ≠ ∅ → wordSet (pyLower (cs "alpha beta")) ≠ ∅ →
      5 * ((wordSet (pyLower (cs "x"))) ∩ (wordSet (pyLower (cs "alpha beta")))).card ≤
        3 * (wordSet (pyLower (cs "alpha beta"))).card) :=
  C3_amended [cs "alpha beta", cs "x"] (cs "alpha beta") (cs "x") (by decide)

/-! ## C4 — tokenizer decomposition lemmas -/

/-- Segments produced by `splitOnP` contain no separator characters. -/
theorem mem_splitOnP_not_sep {p : Char → Bool} :
    ∀ (s x : List Char), x ∈ s.splitOnP p → ∀ c ∈ x, p c = false := by
  intro s
  induction s with
  | nil =>
    intro x hx c hc
    simp only [List.splitOnP_nil, List.mem_singleton] at hx
    subst hx
    exact absurd hc (List.not_mem_nil c)
  | cons a s ih =>
    intro x hx c hc
    rw [List.splitOnP_cons] at hx
    by_cases hpa : p a = true
    · rw [if_pos hpa] at hx
      rcases List.mem_cons.1 hx with rfl | hx'
      · exact absurd hc (List.not_mem_nil c)
      · exact ih x hx' c hc
    · rw [if_neg hpa] at hx
      cases hsp : s.splitOnP p with
      | nil => exact absurd hsp (List.splitOnP_ne_nil p s)
      | cons h0 rest =>
        rw [hsp, List.modifyHead_cons] at hx
        rcases List.mem_cons.1 hx with rfl | hx'
        · rcases List.mem_cons.1 hc with rfl | hc'
          · exact Bool.eq_false_iff.2 hpa
          · exact ih h0 (by rw [hsp]; exact List.mem_cons_self _ _) c hc'
        · exact ih x (by rw [hsp]; exact List.mem_cons_of_mem _ hx') c hc

/-- The text starts with the first `splitOnP` segment, and the
remainder (if any) starts with a separator. -/
theorem splitOnP_head_decomp (p : Char → Bool) :
    ∀ (s : List Char), ∃ post, s = (s.splitOnP p).headD [] ++ post ∧
      (∀ c, post.head? = some c → p c = true) := by
  intro s
  induction s with
  | nil =>
    exact ⟨[], by simp, fun c hc => Option.noConfusion hc⟩
  | cons a s ih =>
    by_cases hpa : p a = true
    · refine ⟨a :: s, ?_, ?_⟩
      · rw [List.splitOnP_cons, if_pos hpa]
        simp
      · intro c hc
        cases hc
        exact hpa
    · obtain ⟨post, hpost, hsep⟩ := ih
      refine ⟨post, ?_, hsep⟩
      rw [List.splitOnP_cons, if_neg hpa]
      cases hsp : s.splitOnP p with
      | nil => exact absurd hsp (List.splitOnP_ne_nil p s)
      | cons h0 rest =>
        rw [hsp] at hpost
        rw [List.modifyHead_cons]
        simp only [List.headD_cons] at hpost ⊢
        rw [List.cons_append, ← hpost]

/-- Every token of `splitWS` occurs in the text delimited by whitespace
(or a text boundary) on both sides. -/
theorem splitWS_decomp_aux :
    ∀ (n : Nat) (s : List Char), s.length ≤ n → ∀ x ∈ splitWS s,
      ∃ pre post, s = pre ++ x ++ post ∧
        (∀ c, pre.getLast? = some c → pyIsSpace c = true) ∧
        (∀ c, post.head? = some c → pyIsSpace c = true) := by
  intro n
  induction n with
  | zero =>
    intro s hs x hx
    obtain rfl := List.length_eq_zero.1 (Nat.le_zero.1 hs)
    simp [splitWS] at hx
  | succ n ih =>
    intro s hs x hx
    cases s with
    | nil => simp [splitWS] at hx
    | cons a s' =>
      have hs' : s'.length ≤ n := by
        simpa using Nat.le_of_succ_le_succ (by simpa using hs)
      by_cases hpa : pyIsSpace a = true
      · have hstep : splitWS (a :: s') = splitWS s' := by
          unfold splitWS
          rw [List.splitOnP_cons, if_pos hpa, List.filter_cons]
          simp
        rw [hstep] at hx
        obtain ⟨pre, post, heq, hpre, hpost⟩ := ih s' hs' x hx
        refine ⟨a :: pre, post, by rw [List.cons_append, List.cons_append, ← heq],
          ?_, hpost⟩
        intro c hc
        cases pre with
        | nil =>
          cases hc
          exact hpa
        | cons b pre' =>
          rw [List.getLast?_cons_cons] at hc
          exact hpre c hc
      · obtain ⟨post0, hpost0, hsep0⟩ := splitOnP_head_decomp pyIsSpace s'
        cases hsp : s'.splitOnP pyIsSpace with
        | nil => exact absurd hsp (List.splitOnP_ne_nil _ _)
        | cons h0 rest =>
          rw [hsp] at hpost0
          simp only [List.headD_cons] at hpost0
          have hh0 : ∀ c ∈ h0, pyIsSpace c = false :=
            fun c hc => mem_splitOnP_not_sep s' h0
              (by rw [hsp]; exact List.mem_cons_self _ _) c hc
          cases hp0 : post0 with
          | nil =>
            rw [hp0, List.append_nil] at hpost0
            -- s' = h0, entirely separator-free: one single token
            have hsingle : splitWS (a :: s') = [a :: s'] := by
              unfold splitWS
              rw [List.splitOnP_eq_single]
              · simp
              · intro y hy
                rcases List.mem_cons.1 hy with rfl | hy'
                · simp [hpa]
                · rw [hpost0] at hy'
                  simp [hh0 y hy']
            rw [hsingle, List.mem_singleton] at hx
            subst hx
            exact ⟨[], [], by simp, fun c hc => Option.noConfusion hc,
              fun c hc => Option.noConfusion hc⟩
          | cons b post0' =>
            rw [hp0] at hpost0 hsep0
            have hb : pyIsSpace b = true := hsep0 b rfl
            -- a :: s' = (a :: h0) ++ b :: post0'
            have hseq : a :: s' = (a :: h0) ++ b :: post0' := by
              rw [hpost0]
              rfl
            have hsplit : splitWS (a :: s') = (a :: h0) :: splitWS post0' := by
              unfold splitWS
              rw [hseq, List.splitOnP_first _ _ ?_ b hb, List.filter_cons]
              · simp
              · intro y hy
                rcases List.mem_cons.1 hy with rfl | hy'
                · simp [hpa]
                · simp [hh0 y hy']
            rw [hsplit] at hx
            rcases List.mem_cons.1 hx with rfl | hx'
            · exact ⟨[], b :: post0', by simpa using hseq,
                fun c hc => Option.noConfusion hc,
                fun c hc => by cases hc; exact hb⟩
            · have hlen : post0'.length ≤ n := by
                have : s'.length = h0.length + (b :: post0').length := by
                  rw [hpost0, List.length_append]
                simp only [List.length_cons] at this
                omega
              obtain ⟨pre', post', heq', hpre', hpost'⟩ := ih post0' hlen x hx'
              refine ⟨(a :: h0) ++ b :: pre', post', ?_, ?_, hpost'⟩
              · rw [hseq, heq']
                simp
              · intro c hc
                rw [List.getLast?_append_cons] at hc
                cases pre' with
                | nil =>
                  simp only [List.getLast?_singleton] at hc
                  cases hc
                  exact hb
                | cons b' pre'' =>
                  rw [List.getLast?_cons_cons] at hc
                  exact hpre' c hc

/-! ## C4 — character-class bridges and `takeWhile` runs -/

theorem pyIsSpace_not_classes {c : Char} (h : pyIsSpace c = true) :
    isWordChar c = false ∧ isDomChar c = false ∧ isTldChar c = false ∧
      isLocalChar c = false := by
  simp only [pyIsSpace, Bool.or_eq_true, beq_iff_eq] at h
  rcases h with ((((rfl | rfl) | rfl) | rfl) | rfl) | rfl <;> decide

theorem isAlphanum_isWordChar {c : Char} (h : c.isAlphanum = true) :
    isWordChar c = true := by
  simp [isWordChar, h]

theorem isAlpha_isTldChar {c : Char} (h : c.isAlpha = true) :
    isTldChar c = true := by
  simp [isTldChar, h]

theorem isAlpha_isDomChar {c : Char} (h : c.isAlpha = true) :
    isDomChar c = true := by
  simp only [isDomChar, Bool.or_eq_true]
  exact Or.inl (Or.inl (by simp [Char.isAlphanum, h]))

/-- A fully-in-class prefix passes through `takeWhile`. -/
theorem takeWhile_append_all {p : Char → Bool} :
    ∀ (a b : List Char), (∀ c ∈ a, p c = true) →
      (a ++ b).takeWhile p = a ++ b.takeWhile p := by
  intro a
  induction a with
  | nil => intro b _; rfl
  | cons c a ih =>
    intro b ha
    rw [List.cons_append, List.takeWhile_cons,
      if_pos (ha c (List.mem_cons_self c a)), ih b
        (fun d hd => ha d (List.mem_cons_of_mem c hd)), List.cons_append]

/-- A `takeWhile` run ends at the first out-of-class character. -/
theorem takeWhile_append_stop {p : Char → Bool} (a b : List Char) (c₀ : Char)
    (ha : ∀ c ∈ a, p c = true) (hc : p c₀ = false) :
    (a ++ c₀ :: b).takeWhile p = a := by
  rw [takeWhile_append_all a (c₀ :: b) ha, List.takeWhile_cons, hc]
  simp

/-- Structure of the `domain.tld` part of a well-formed token. -/
theorem domTld_decomp {r : List Char} (h : domTldOK r = true) :
    ∃ dom tld, r = dom ++ '.' :: tld ∧ dom ≠ [] ∧
      (∀ c ∈ dom, isDomChar c = true) ∧
      2 ≤ tld.length ∧ (∀ c ∈ tld, c.isAlpha = true) := by
  unfold domTldOK at h
  rw [Bool.and_eq_true, Bool.and_eq_true, Bool.and_eq_true, Bool.and_eq_true] at h
  obtain ⟨⟨⟨⟨hlen, hdomne⟩, hdomcls⟩, htldlen⟩, htldcls⟩ := h
  have hlen' := of_decide_eq_true hlen
  have htldlen' := of_decide_eq_true htldlen
  have hsplit := List.takeWhile_append_dropWhile (fun c => c != '.') r.reverse
  have hal : (r.reverse.takeWhile (fun c => c != '.')).length = (tldOf r).length := by
    unfold tldOf
    rw [List.length_reverse]
  have hdne : r.reverse.dropWhile (fun c => c != '.') ≠ [] := by
    intro h0
    rw [h0, List.append_nil] at hsplit
    have : (r.reverse.takeWhile (fun c => c != '.')).length = r.length := by
      rw [hsplit, List.length_reverse]
    omega
  cases hd2 : r.reverse.dropWhile (fun c => c != '.') with
  | nil => exact absurd hd2 hdne
  | cons e z =>
    have he : e = '.' := by
      have hw := List.head?_dropWhile_not (fun c => c != '.') r.reverse
      rw [hd2] at hw
      simpa using hw
    subst he
    have hrrev : r.reverse = r.reverse.takeWhile (fun c => c != '.') ++ '.' :: z := by
      conv_lhs => rw [← hsplit]
      rw [hd2]
    have htld : tldOf r = (r.reverse.takeWhile (fun c => c != '.')).reverse := rfl
    have hr : r = z.reverse ++ '.' :: tldOf r := by
      calc r = r.reverse.reverse := (List.reverse_reverse r).symm
        _ = (r.reverse.takeWhile (fun c => c != '.') ++ '.' :: z).reverse := by
            rw [← hrrev]
        _ = ('.' :: z).reverse ++ tldOf r := by rw [List.reverse_append, htld]
        _ = z.reverse ++ '.' :: tldOf r := by simp
    have harith : r.length - (tldOf r).length - 1 = z.reverse.length := by
      have : r.length = z.reverse.length + 1 + (tldOf r).length := by
        conv_lhs => rw [hr]
        simp only [List.length_append, List.length_cons]
        omega
      omega
    have hdom : domOf r = z.reverse := by
      unfold domOf
      rw [harith]
      conv_lhs => rw [hr]
      exact List.take_left _ _
    refine ⟨z.reverse, tldOf r, hr, ?_, ?_, htldlen', ?_⟩
    · intro h0
      rw [hdom] at hdomne
      rw [h0] at hdomne
      exact Bool.noConfusion hdomne
    · intro c hc
      rw [hdom] at hdomcls
      exact List.all_eq_true.1 hdomcls c hc
    · intro c hc
      exact List.all_eq_true.1 htldcls c hc

/-- Structure of a well-formed email token: `local@domain.tld` with the
advertised character classes. -/
theorem wellFormed_decomp {tok : List Char} (h : isWellFormedEmailToken tok = true) :
    ∃ l dom tld, tok = l ++ '@' :: (dom ++ '.' :: tld) ∧
      (∃ c0 l', l = c0 :: l' ∧ c0.isAlphanum = true) ∧
      (∀ c ∈ l, isLocalChar c = true) ∧
      dom ≠ [] ∧ (∀ c ∈ dom, isDomChar c = true) ∧
      2 ≤ tld.length ∧ (∀ c ∈ tld, c.isAlpha = true) := by
  unfold isWellFormedEmailToken at h
  split at h
  case h_2 => exact Bool.noConfusion h
  case h_1 r heq =>
    rw [Bool.and_eq_true] at h
    obtain ⟨hloc, hdt⟩ := h
    obtain ⟨dom, tld, hr, hdomne, hdomc, htldlen, htldc⟩ := domTld_decomp hdt
    obtain ⟨t, ht⟩ := List.takeWhile_prefix (l := tok) (fun c => c != '@')
    have hdrop : tok.drop (tok.takeWhile (fun c => c != '@')).length = t := by
      nth_rewrite 2 [← ht]
      exact List.drop_left _ _
    rw [hdrop] at heq
    unfold localOK at hloc
    rw [Bool.and_eq_true, Bool.and_eq_true] at hloc
    obtain ⟨⟨hne, hall⟩, hhead⟩ := hloc
    cases hl0 : tok.takeWhile (fun c => c != '@') with
    | nil =>
      rw [hl0] at hne
      exact Bool.noConfusion hne
    | cons c0 l' =>
      refine ⟨c0 :: l', dom, tld, ?_, ⟨c0, l', rfl, ?_⟩, ?_, hdomne, hdomc,
        htldlen, htldc⟩
      · rw [← ht, hl0, heq, hr]
      · rw [hl0] at hhead
        simpa using hhead
      · rw [hl0] at hall
        exact fun c hc => List.all_eq_true.1 hall c hc

/-- A run entirely in the class is its own `takeWhile`. -/
theorem takeWhile_all_eq_self {p : Char → Bool} (a : List Char)
    (ha : ∀ c ∈ a, p c = true) : a.takeWhile p = a := by
  have := takeWhile_append_all a [] ha
  simpa using this

/-- `isWordOpt` on a present character. -/
theorem isWordOpt_some (c : Char) : isWordOpt (some c) = isWordChar c := rfl

/-- Alphabetic characters are word characters. -/
theorem isAlpha_isWordChar {c : Char} (h : c.isAlpha = true) :
    isWordChar c = true := by
  simp [isWordChar, Char.isAlphanum, h]

/-- The TLD repetition succeeds immediately at the full TLD run when a
word boundary follows it. -/
theorem tryTld_isSome_at_full {tld post : List Char}
    (htl : 2 ≤ tld.length) (halpha : ∀ c ∈ tld, c.isAlpha = true)
    (hpost : ∀ c, post.head? = some c → pyIsSpace c = true) :
    (tryTld (tld ++ post) tld.length).isSome := by
  obtain ⟨j, hj⟩ : ∃ j, tld.length = j + 2 := ⟨tld.length - 2, by omega⟩
  rw [hj]
  have h1 : isWordOpt (tld ++ post)[j + 1]? = true := by
    rw [List.getElem?_append_left (by omega : j + 1 < tld.length),
      List.getElem?_eq_getElem (by omega : j + 1 < tld.length)]
    exact isAlpha_isWordChar (halpha _ (List.getElem_mem _))
  have h2 : isWordOpt (tld ++ post)[j + 2]? = false := by
    rw [List.getElem?_append_right (by omega : tld.length ≤ j + 2),
      show j + 2 - tld.length = 0 from by omega, ← List.head?_eq_getElem?]
    cases hp : post.head? with
    | none => rfl
    | some c =>
      show isWordChar c = false
      exact (pyIsSpace_not_classes (hpost c hp)).1
  unfold tryTld
  rw [h1, h2]
  simp

/-- If some feasible domain-length `k'` below the starting budget `k`
has a dot right after it followed by a successful TLD match, the
descending search of `domDotTld` succeeds. -/
theorem domDotTld_isSome (s2 : List Char) :
    ∀ (k k' : Nat), 1 ≤ k' → k' ≤ k → s2[k']? = some '.' →
      (tryTld (s2.drop (k' + 1))
        ((s2.drop (k' + 1)).takeWhile isTldChar).length).isSome →
      (domDotTld s2 k).isSome := by
  intro k
  induction k with
  | zero => intro k' h1 h2 _ _; omega
  | succ k ih =>
    intro k' h1 h2 hdot htry
    unfold domDotTld
    by_cases hk : k' = k + 1
    · have e1 : k' + 1 = k + 2 := by omega
      rw [hk] at hdot
      rw [e1] at htry
      rw [if_pos (by simp [hdot])]
      cases htt : tryTld (s2.drop (k + 2))
          ((s2.drop (k + 2)).takeWhile isTldChar).length with
      | none => rw [htt] at htry; simp at htry
      | some j => simp
    · have hrec := ih k' h1 (by omega) hdot htry
      by_cases hd : s2[k + 1]? = some '.'
      · rw [if_pos (by simp [hd])]
        cases htt : tryTld (s2.drop (k + 2))
            ((s2.drop (k + 2)).takeWhile isTldChar).length with
        | none => simpa using hrec
        | some j => simp
      · rw [if_neg (by simp [hd])]
        exact hrec

/-- At the position of a well-formed token whose left neighbour is a
text boundary or whitespace and whose right context is empty or
whitespace, the email matcher succeeds. -/
theorem emailMatchAt_isSome_of_token (prev : Option Char) (tok post : List Char)
    (hw : isWellFormedEmailToken tok = true)
    (hprev : isWordOpt prev = false)
    (hpost : ∀ c, post.head? = some c → pyIsSpace c = true) :
    (emailMatchAt prev (tok ++ post)).isSome := by
  obtain ⟨l, dom, tld, htok, ⟨c0, l', hl, hc0⟩, hlcls, hdomne, hdomcls, htldlen,
    htldcls⟩ := wellFormed_decomp hw
  subst hl
  subst htok
  have hassoc : ((c0 :: l') ++ '@' :: (dom ++ '.' :: tld)) ++ post =
      (c0 :: l') ++ '@' :: ((dom ++ '.' :: tld) ++ post) := by
    simp
  rw [hassoc]
  unfold emailMatchAt
  have hb : (isWordOpt prev ==
      isWordOpt ((c0 :: l') ++ '@' :: ((dom ++ '.' :: tld) ++ post)).head?) = false := by
    rw [hprev]
    have : ((c0 :: l') ++ '@' :: ((dom ++ '.' :: tld) ++ post)).head? = some c0 := rfl
    rw [this]
    show (false == isWordChar c0) = false
    rw [isAlphanum_isWordChar hc0]
    rfl
  rw [if_neg (by simp [hb, hprev, isWordOpt_some, isAlphanum_isWordChar hc0])]
  have hloc : ((c0 :: l') ++ '@' :: ((dom ++ '.' :: tld) ++ post)).takeWhile
      isLocalChar = c0 :: l' :=
    takeWhile_append_stop _ _ '@' hlcls (by decide)
  rw [hloc]
  rw [if_neg (by simp)]
  have hdrop : ((c0 :: l') ++ '@' :: ((dom ++ '.' :: tld) ++ post)).drop
      (c0 :: l').length = '@' :: ((dom ++ '.' :: tld) ++ post) :=
    List.drop_left _ _
  rw [hdrop]
  show (match domDotTld ((dom ++ '.' :: tld) ++ post)
      (((dom ++ '.' :: tld) ++ post).takeWhile isDomChar).length with
    | some n => some ((c0 :: l').length + 1 + n)
    | none => none).isSome = true
  have hrun : ((dom ++ '.' :: tld) ++ post).takeWhile isDomChar =
      dom ++ '.' :: tld := by
    have hall : ∀ c ∈ dom ++ '.' :: tld, isDomChar c = true := by
      intro c hc
      rcases List.mem_append.1 hc with hc' | hc'
      · exact hdomcls c hc'
      · rcases List.mem_cons.1 hc' with rfl | hc''
        · decide
        · exact isAlpha_isDomChar (htldcls c hc'')
    cases hp : post with
    | nil => rw [List.append_nil]; exact takeWhile_all_eq_self _ hall
    | cons b post' =>
      refine takeWhile_append_stop _ _ b hall ?_
      exact (pyIsSpace_not_classes (hpost b (by rw [hp]; rfl))).2.1
  rw [hrun]
  have hdot : ((dom ++ '.' :: tld) ++ post)[dom.length]? = some '.' := by
    have : (dom ++ '.' :: tld) ++ post = dom ++ ('.' :: (tld ++ post)) := by simp
    rw [this, List.getElem?_append_right (Nat.le_refl _), Nat.sub_self]
    simp
  have htry : (tryTld (((dom ++ '.' :: tld) ++ post).drop (dom.length + 1))
      ((((dom ++ '.' :: tld) ++ post).drop (dom.length + 1)).takeWhile
        isTldChar).length).isSome := by
    have hdr : ((dom ++ '.' :: tld) ++ post).drop (dom.length + 1) = tld ++ post := by
      have h1 : (dom ++ '.' :: tld) ++ post = (dom ++ ['.']) ++ (tld ++ post) := by
        simp
      have h2 : dom.length + 1 = (dom ++ ['.']).length := by simp
      rw [h1, h2]
      exact List.drop_left _ _
    rw [hdr]
    have hrun2 : (tld ++ post).takeWhile isTldChar = tld := by
      have hall : ∀ c ∈ tld, isTldChar c = true :=
        fun c hc => isAlpha_isTldChar (htldcls c hc)
      cases hp : post with
      | nil => rw [List.append_nil]; exact takeWhile_all_eq_self _ hall
      | cons b post' =>
        refine takeWhile_append_stop _ _ b hall ?_
        exact (pyIsSpace_not_classes (hpost b (by rw [hp]; rfl))).2.2.1
    rw [hrun2]
    exact tryTld_isSome_at_full htldlen htldcls hpost
  have hdd := domDotTld_isSome ((dom ++ '.' :: tld) ++ post) (dom ++ '.' :: tld).length
    dom.length (by cases dom with | nil => exact absurd rfl hdomne | cons a d => simp)
    (by simp) hdot htry
  cases hres : domDotTld ((dom ++ '.' :: tld) ++ post) (dom ++ '.' :: tld).length with
  | none => rw [hres] at hdd; simp at hdd
  | some n => simp

/-- When the matcher fires at the current position, `searchFrom` stops there. -/
theorem searchFrom_some (m : Option Char → List Char → Option Nat)
    (prev : Option Char) (s : List Char) (i n : Nat) (h : m prev s = some n) :
    searchFrom m prev s i = some (i, n) := by
  cases s with
  | nil => simp [searchFrom, h]
  | cons c rest => simp [searchFrom, h]

/-- When the matcher fails at the current position, `searchFrom` steps forward. -/
theorem searchFrom_none_cons (m : Option Char → List Char → Option Nat)
    (prev : Option Char) (c : Char) (rest : List Char) (i : Nat)
    (h : m prev (c :: rest) = none) :
    searchFrom m prev (c :: rest) i = searchFrom m (some c) rest (i + 1) := by
  simp [searchFrom, h]

/-- If the matcher succeeds at the start of `suf` (with the correct
preceding character), the leftmost search over `pre ++ suf` succeeds. -/
theorem searchFrom_isSome_append (m : Option Char → List Char → Option Nat) :
    ∀ (pre suf : List Char) (prev : Option Char) (i : Nat),
      (m (pre.getLast?.or prev) suf).isSome →
      (searchFrom m prev (pre ++ suf) i).isSome := by
  intro pre
  induction pre with
  | nil =>
    intro suf prev i hm
    simp only [List.nil_append]
    simp only [List.getLast?_nil, Option.or] at hm
    obtain ⟨n, hn⟩ := Option.isSome_iff_exists.1 hm
    rw [searchFrom_some m prev suf i n hn]
    rfl
  | cons c pre' ih =>
    intro suf prev i hm
    rw [List.cons_append]
    cases hms : m prev (c :: (pre' ++ suf)) with
    | some n =>
      rw [searchFrom_some m prev _ i n hms]
      rfl
    | none =>
      rw [searchFrom_none_cons m prev c (pre' ++ suf) i hms]
      have hm' : (m (pre'.getLast?.or (some c)) suf).isSome := by
        have : (c :: pre').getLast?.or prev = pre'.getLast?.or (some c) := by
          cases pre' with
          | nil => rfl
          | cons b pre'' =>
            rw [List.getLast?_cons_cons]
            cases hgl : (b :: pre'').getLast? with
            | none =>
              exact absurd hgl (by simp)
            | some d => rfl
        rw [← this]
        exact hm
      exact ih suf (some c) (i + 1) hm'

/-- C4 amended: whenever the text contains a well-formed email token,
`extract_email` returns some value (never `none`).  The returned value
is the leftmost match of the code's pattern, which — as the
counterexample shows — may differ from the token, because the pattern's
TLD class `[A-Z|a-z]` also admits `'|'`. -/
theorem C4_amended (t : List Char) (h : containsWellFormedEmailToken t = true) :
    (extract_email t).isSome := by
  unfold containsWellFormedEmailToken at h
  obtain ⟨tok, htok, hwf⟩ := List.any_eq_true.1 h
  obtain ⟨pre, post, heq, hpre, hpost⟩ :=
    splitWS_decomp_aux t.length t (Nat.le_refl _) tok htok
  have hprev : isWordOpt (pre.getLast?.or none) = false := by
    cases hgl : pre.getLast? with
    | none => rfl
    | some c =>
      show isWordChar c = false
      exact (pyIsSpace_not_classes (hpre c hgl)).1
  have hm : (emailMatchAt (pre.getLast?.or none) (tok ++ post)).isSome :=
    emailMatchAt_isSome_of_token _ tok post hwf hprev hpost
  have hsearch : (searchFrom emailMatchAt none (pre ++ (tok ++ post)) 0).isSome :=
    searchFrom_isSome_append emailMatchAt pre (tok ++ post) none 0 hm
  unfold extract_email reSearch
  rw [show t = pre ++ (tok ++ post) from by rw [heq]; simp]
  rw [Option.isSome_map']
  exact hsearch

/-- C4 witness: the amended theorem applied at a concrete text. -/
theorem C4_amended_witness :
    (extract_email (cs "reach me at x@y.com ok")).isSome :=
  C4_amended (cs "reach me at x@y.com ok") (by decide)

/-! ## C6 amended: order-independence of `extract_skills` up to multi-word phrases -/

/-- `splitOnP` distributes over an append at a separator character. -/
theorem splitOnP_sep_append (P : Char → Bool) (c : Char) (hc : P c = true) :
    ∀ x y : List Char, (x ++ c :: y).splitOnP P = x.splitOnP P ++ y.splitOnP P := by
  intro x
  induction x with
  | nil =>
    intro y
    rw [List.nil_append, List.splitOnP_cons, if_pos hc, List.splitOnP_nil]
    rfl
  | cons d x' ih =>
    intro y
    rw [List.cons_append, List.splitOnP_cons, List.splitOnP_cons]
    by_cases hd : P d = true
    · rw [if_pos hd, if_pos hd, ih, List.cons_append]
    · rw [if_neg hd, if_neg hd, ih]
      cases hsp : x'.splitOnP P with
      | nil => exact absurd hsp (List.splitOnP_ne_nil P x')
      | cons s rest => simp

/-- `classTokens` distributes over an append at a space. -/
theorem classTokens_sep_append (x y : List Char) :
    classTokens (x ++ ' ' :: y) = classTokens x ++ classTokens y := by
  unfold classTokens
  rw [splitOnP_sep_append _ ' ' (by decide), List.filter_append]

/-- `classTokens` of a space-join is the concatenation of the tokens'
`classTokens`. -/
theorem classTokens_join :
    ∀ L : List (List Char), classTokens (pyJoin [' '] L) = L.flatMap classTokens := by
  intro L
  induction L with
  | nil => decide
  | cons a rest ih =>
    cases rest with
    | nil => simp [pyJoin, List.intercalate, classTokens]
    | cons b rest' =>
      have hj : pyJoin [' '] (a :: b :: rest') = a ++ ' ' :: pyJoin [' '] (b :: rest') := by
        simp [pyJoin, List.intercalate, List.intersperse]
      rw [hj, classTokens_sep_append, ih]
      simp

/-- `pyLower` distributes over a space-join. -/
theorem pyLower_join :
    ∀ L : List (List Char), pyLower (pyJoin [' '] L) = pyJoin [' '] (L.map pyLower) := by
  intro L
  induction L with
  | nil => rfl
  | cons a rest ih =>
    cases rest with
    | nil => simp [pyJoin, List.intercalate]
    | cons b rest' =>
      have hj : pyJoin [' '] (a :: b :: rest') = a ++ ' ' :: pyJoin [' '] (b :: rest') := by
        simp [pyJoin, List.intercalate, List.intersperse]
      have hj2 : pyJoin [' '] ((a :: b :: rest').map pyLower) =
          pyLower a ++ ' ' :: pyJoin [' '] ((b :: rest').map pyLower) := by
        simp [pyJoin, List.intercalate, List.intersperse]
      rw [hj, hj2, ← ih]
      show (a ++ ' ' :: pyJoin [' '] (b :: rest')).map Char.toLower = _
      rw [List.map_append, List.map_cons]
      rfl

/-- `any` is invariant under permutation. -/
theorem perm_any {L₁ L₂ : List (List Char)} (h : L₁.Perm L₂) (f : List Char → Bool) :
    L₁.any f = L₂.any f := by
  apply Bool.eq_iff_iff.mpr
  rw [List.any_eq_true, List.any_eq_true]
  exact ⟨fun ⟨x, hx, hf⟩ => ⟨x, h.mem_iff.mp hx, hf⟩,
         fun ⟨x, hx, hf⟩ => ⟨x, h.mem_iff.mpr hx, hf⟩⟩


/-- A space-free prefix of `x ++ ' ' :: y` is a prefix of `x`. -/
theorem prefix_space_free {p x y : List Char} (hsp : ' ' ∉ p)
    (h : p <+: x ++ ' ' :: y) : p <+: x := by
  by_cases hlen : p.length ≤ x.length
  · exact List.prefix_of_prefix_length_le h (List.prefix_append x (' ' :: y)) hlen
  · exfalso
    apply hsp
    have hx : (x ++ ' ' :: y)[x.length]? = some ' ' := by
      rw [List.getElem?_append_right (Nat.le_refl _), Nat.sub_self]
      simp
    have hp : p[x.length]? = some ' ' := by
      obtain ⟨t, ht⟩ := h
      rw [← ht] at hx
      rw [← hx]
      exact (List.getElem?_append_left (by omega)).symm
    exact List.getElem?_mem hp

/-- A space-free infix of `x ++ ' ' :: y` is an infix of `x` or of `y`. -/
theorem infix_space_free {p : List Char} (hsp : ' ' ∉ p) :
    ∀ x y : List Char, p <:+: x ++ ' ' :: y → p <:+: x ∨ p <:+: y := by
  intro x
  induction x with
  | nil =>
    intro y h
    rw [List.nil_append, List.infix_cons_iff] at h
    rcases h with h | h
    · have hp0 : p = [] := List.prefix_nil.mp (prefix_space_free (x := []) hsp h)
      rw [hp0]
      exact Or.inl List.nil_infix
    · exact Or.inr h
  | cons d x' ih =>
    intro y h
    rw [List.cons_append, List.infix_cons_iff] at h
    rcases h with h | h
    · rw [show d :: (x' ++ ' ' :: y) = (d :: x') ++ ' ' :: y from rfl] at h
      exact Or.inl (prefix_space_free hsp h).isInfix
    · rcases ih y h with h' | h'
      · exact Or.inl (List.infix_cons h')
      · exact Or.inr h'

/-- A nonempty space-free string is an infix of a space-join iff it is an
infix of one of the joined pieces. -/
theorem infix_join {p : List Char} (hp : p ≠ []) (hsp : ' ' ∉ p) :
    ∀ L : List (List Char), p <:+: pyJoin [' '] L ↔ ∃ tok ∈ L, p <:+: tok := by
  intro L
  induction L with
  | nil =>
    constructor
    · intro h
      rw [show pyJoin [' '] [] = [] from rfl, List.infix_nil] at h
      exact absurd h hp
    · rintro ⟨tok, htok, _⟩
      exact absurd htok (List.not_mem_nil tok)
  | cons a rest ih =>
    cases rest with
    | nil =>
      have hj1 : pyJoin [' '] [a] = a := by simp [pyJoin, List.intercalate]
      rw [hj1]
      constructor
      · intro h
        exact ⟨a, List.mem_singleton_self a, h⟩
      · rintro ⟨tok, htok, h⟩
        rw [List.mem_singleton] at htok
        rw [← htok]
        exact h
    | cons b rest' =>
      have hj : pyJoin [' '] (a :: b :: rest') = a ++ ' ' :: pyJoin [' '] (b :: rest') := by
        simp [pyJoin, List.intercalate, List.intersperse]
      rw [hj]
      constructor
      · intro h
        rcases infix_space_free hsp a _ h with h' | h'
        · exact ⟨a, List.mem_cons_self a _, h'⟩
        · obtain ⟨tok, htok, htk⟩ := (ih).mp h'
          exact ⟨tok, List.mem_cons_of_mem a htok, htk⟩
      · rintro ⟨tok, htok, htk⟩
        rcases List.mem_cons.mp htok with rfl | htok'
        · obtain ⟨s, t, hst⟩ := htk
          exact ⟨s, t ++ ' ' :: pyJoin [' '] (b :: rest'), by rw [← hst]; simp⟩
        · obtain ⟨s, t, hst⟩ := ((ih).mpr ⟨tok, htok', htk⟩)
          exact ⟨a ++ ' ' :: s, t, by rw [← hst]; simp⟩


/-- The space context behind an occurrence is boundary-equivalent to the
start of the text. -/
theorem isWordOpt_getLast_space_ctx (x c : List Char) :
    isWordOpt ((x ++ ' ' :: c).getLast?) = isWordOpt c.getLast? := by
  rw [List.getLast?_append_of_ne_nil x (by simp)]
  cases c with
  | nil => decide
  | cons e c' =>
    rw [List.getLast?_cons_cons]

/-- The space context ahead of an occurrence is boundary-equivalent to the
end of the text. -/
theorem isWordOpt_head_space_ctx (b y : List Char) :
    isWordOpt ((b ++ ' ' :: y).head?) = isWordOpt b.head? := by
  cases b with
  | nil =>
    show isWordOpt (some ' ') = isWordOpt none
    decide
  | cons e b' => rfl

/-- `wbMatchAtIdx` at the seam of an explicit occurrence decomposition. -/
theorem wbMatchAtIdx_append (pre sk post : List Char) (hsk : sk ≠ []) :
    wbMatchAtIdx (pre ++ (sk ++ post)) sk pre.length =
      ((isWordOpt pre.getLast? != isWordOpt sk.head?) &&
       (isWordOpt sk.getLast? != isWordOpt post.head?)) := by
  have hlen1 : 1 ≤ sk.length := List.length_pos.mpr hsk
  have hA : (((pre ++ (sk ++ post)).drop pre.length).take sk.length == sk) = true := by
    rw [List.drop_left, List.take_left]
    exact beq_self_eq_true sk
  have hB1 : (if pre.length = 0 then none else (pre ++ (sk ++ post))[pre.length - 1]?) =
      pre.getLast? := by
    cases hpre : pre with
    | nil => rfl
    | cons q pre' =>
      rw [if_neg (by simp)]
      rw [List.getElem?_append_left (by simp)]
      exact (List.getLast?_eq_getElem? _).symm
  have hB2 : (pre ++ (sk ++ post))[pre.length]? = sk.head? := by
    rw [List.getElem?_append_right (Nat.le_refl _), Nat.sub_self]
    cases sk with
    | nil => exact absurd rfl hsk
    | cons c0 sk' => simp
  have hC1 : (pre ++ (sk ++ post))[pre.length + sk.length - 1]? = sk.getLast? := by
    rw [← List.append_assoc]
    rw [List.getElem?_append_left (by simp; omega)]
    rw [List.getElem?_append_right (by omega)]
    rw [show pre.length + sk.length - 1 - pre.length = sk.length - 1 from by omega]
    exact (List.getLast?_eq_getElem? _).symm
  have hC2 : (pre ++ (sk ++ post))[pre.length + sk.length]? = post.head? := by
    rw [← List.append_assoc]
    rw [List.getElem?_append_right (by simp)]
    rw [show pre.length + sk.length - (pre ++ sk).length = 0 from by simp]
    exact (List.head?_eq_getElem? post).symm
  unfold wbMatchAtIdx
  rw [hA, hB1, hB2, hC1, hC2]
  simp

/-- `wbSearch` succeeds exactly when the text decomposes around an
occurrence of `sk` with non-word (or absent) context characters at both
seams. -/
theorem wbSearch_iff_decomp (text sk : List Char) (hsk : sk ≠ []) :
    wbSearch text sk = true ↔ ∃ pre post, text = pre ++ (sk ++ post) ∧
      ((isWordOpt pre.getLast? != isWordOpt sk.head?) &&
       (isWordOpt sk.getLast? != isWordOpt post.head?)) = true := by
  constructor
  · intro h
    obtain ⟨i, hi, hm⟩ := List.any_eq_true.mp h
    rw [List.mem_range] at hi
    have hile : i ≤ text.length := by omega
    have hA : ((text.drop i).take sk.length == sk) = true := by
      unfold wbMatchAtIdx at hm
      rw [Bool.and_eq_true, Bool.and_eq_true] at hm
      exact hm.1.1
    have hAeq : (text.drop i).take sk.length = sk := beq_iff_eq.mp hA
    have hplen : (text.take i).length = i := by
      rw [List.length_take]
      omega
    have hdi : text.drop i = sk ++ (text.drop i).drop sk.length := by
      conv_lhs => rw [← List.take_append_drop sk.length (text.drop i)]
      rw [hAeq]
    have heq : text = text.take i ++ (sk ++ (text.drop i).drop sk.length) := by
      conv_lhs => rw [← List.take_append_drop i text, hdi]
    refine ⟨text.take i, (text.drop i).drop sk.length, heq, ?_⟩
    rw [← wbMatchAtIdx_append _ _ _ hsk, ← heq, hplen]
    exact hm
  · rintro ⟨pre, post, heq, hcond⟩
    apply List.any_eq_true.mpr
    refine ⟨pre.length, List.mem_range.mpr ?_, ?_⟩
    · rw [heq, List.length_append]
      omega
    · rw [heq, wbMatchAtIdx_append _ _ _ hsk]
      exact hcond

/-- Word-boundary search for a nonempty space-free literal distributes
over an append at a space. -/
theorem wbSearch_append_space {sk : List Char} (hsk : sk ≠ []) (hsp : ' ' ∉ sk)
    (x y : List Char) :
    wbSearch (x ++ ' ' :: y) sk = (wbSearch x sk || wbSearch y sk) := by
  apply Bool.eq_iff_iff.mpr
  rw [Bool.or_eq_true, wbSearch_iff_decomp _ _ hsk, wbSearch_iff_decomp _ _ hsk,
      wbSearch_iff_decomp _ _ hsk]
  constructor
  · rintro ⟨pre, post, heq, hcond⟩
    rcases List.append_eq_append_iff.mp heq.symm with ⟨a, ha1, ha2⟩ | ⟨c, hc1, hc2⟩
    · rcases List.append_eq_append_iff.mp ha2 with ⟨b, hb1, hb2⟩ | ⟨d, hd1, hd2⟩
      · refine Or.inl ⟨pre, b, ?_, ?_⟩
        · rw [ha1, hb1]
        · have hpost : isWordOpt post.head? = isWordOpt b.head? := by
            rw [hb2, isWordOpt_head_space_ctx]
          rw [← hpost]
          exact hcond
      · cases hdc : d with
        | nil =>
          rw [hdc, List.append_nil] at hd1
          rw [hdc, List.nil_append] at hd2
          refine Or.inl ⟨pre, [], ?_, ?_⟩
          · rw [ha1, hd1, List.append_nil]
          · have hpost : isWordOpt post.head? = isWordOpt ([] : List Char).head? := by
              rw [← hd2]
              show isWordOpt (some ' ') = isWordOpt none
              decide
            rw [← hpost]
            exact hcond
        | cons e d' =>
          rw [hdc] at hd2 hd1
          rw [List.cons_append] at hd2
          injection hd2 with he hy
          exfalso
          apply hsp
          rw [hd1, ← he]
          exact List.mem_append_right a (List.mem_cons_self ' ' d')
    · cases hcc : c with
      | nil =>
        rw [hcc, List.nil_append] at hc2
        cases sk with
        | nil => exact absurd rfl hsk
        | cons s0 sk' =>
          rw [List.cons_append] at hc2
          injection hc2 with hs0 _
          exact absurd (hs0 ▸ List.mem_cons_self s0 sk') (by rw [← hs0] at hsp; exact hsp)
      | cons e c' =>
        rw [hcc] at hc2 hc1
        rw [List.cons_append] at hc2
        injection hc2 with he hy
        refine Or.inr ⟨c', post, hy, ?_⟩
        have hctx : isWordOpt pre.getLast? = isWordOpt c'.getLast? := by
          rw [hc1, ← he, isWordOpt_getLast_space_ctx]
        rw [← hctx]
        exact hcond
  · rintro (⟨pre, post, heq, hcond⟩ | ⟨pre, post, heq, hcond⟩)
    · refine ⟨pre, post ++ ' ' :: y, ?_, ?_⟩
      · rw [heq]
        simp
      · have hpost : isWordOpt (post ++ ' ' :: y).head? = isWordOpt post.head? :=
          isWordOpt_head_space_ctx post y
        rw [hpost]
        exact hcond
    · refine ⟨x ++ ' ' :: pre, post, ?_, ?_⟩
      · rw [heq]
        simp
      · have hctx : isWordOpt (x ++ ' ' :: pre).getLast? = isWordOpt pre.getLast? :=
          isWordOpt_getLast_space_ctx x pre
        rw [hctx]
        exact hcond

/-- `wbSearch` never fires on the empty text for a nonempty literal. -/
theorem wbSearch_nil {sk : List Char} (hsk : sk ≠ []) : wbSearch [] sk = false := by
  cases h : wbSearch [] sk with
  | false => rfl
  | true =>
    obtain ⟨pre, post, heq, _⟩ := (wbSearch_iff_decomp [] sk hsk).mp h
    rcases List.append_eq_nil.mp heq.symm with ⟨h1, h2⟩
    rcases List.append_eq_nil.mp h2 with ⟨h3, _⟩
    exact absurd h3 hsk

/-- Word-boundary search for a nonempty space-free literal over a
space-join fires iff it fires on one of the joined pieces. -/
theorem wbSearch_join {sk : List Char} (hsk : sk ≠ []) (hsp : ' ' ∉ sk) :
    ∀ L : List (List Char), wbSearch (pyJoin [' '] L) sk = L.any (fun tok => wbSearch tok sk) := by
  intro L
  induction L with
  | nil => exact wbSearch_nil hsk
  | cons a rest ih =>
    cases rest with
    | nil =>
      have hj1 : pyJoin [' '] [a] = a := by simp [pyJoin, List.intercalate]
      rw [hj1]
      simp
    | cons b rest' =>
      have hj : pyJoin [' '] (a :: b :: rest') = a ++ ' ' :: pyJoin [' '] (b :: rest') := by
        simp [pyJoin, List.intercalate, List.intersperse]
      rw [hj, wbSearch_append_space hsk hsp, ih]
      simp

/-- The per-layer membership characterizations combine into a congruence:
two texts whose lowered token lists agree as sets, whose special-pattern
substring tests agree, and whose word-boundary searches agree over the
vocabulary, yield the same skill set. -/
theorem extract_skills_congr (t1 t2 : List Char)
    (hws : ∀ w, w ∈ classTokens (pyLower t1) ↔ w ∈ classTokens (pyLower t2))
    (hspec : ∀ sk ∈ special_pattern_skills,
      (pyLower sk <:+: pyLower t1 ↔ pyLower sk <:+: pyLower t2))
    (hwb : ∀ sk ∈ SKILLS_LIST,
      wbSearch (pyLower t1) (pyLower sk) = wbSearch (pyLower t2) (pyLower sk)) :
    extract_skills t1 = extract_skills t2 := by
  have hs3 : exactLayer (pyLower t1)
        (specialLayer (pyLower t1) (aliasLayer (classTokens (pyLower t1)) ∅)) =
      exactLayer (pyLower t2)
        (specialLayer (pyLower t2) (aliasLayer (classTokens (pyLower t2)) ∅)) := by
    apply Finset.ext
    intro x
    rw [exactLayer_eq, exactLayer_eq, mem_optInsertFold, mem_optInsertFold,
        specialLayer_eq, specialLayer_eq, mem_optInsertFold, mem_optInsertFold,
        aliasLayer_eq, aliasLayer_eq, mem_optInsertFold, mem_optInsertFold]
    constructor
    · rintro (((hx | ⟨w, hw, hc⟩) | ⟨sk, hsk, hc⟩) | ⟨sk, hsk, hc⟩)
      · exact Or.inl (Or.inl (Or.inl hx))
      · exact Or.inl (Or.inl (Or.inr ⟨w, (hws w).1 hw, hc⟩))
      · by_cases hin : pyLower sk <:+: pyLower t1
        · rw [if_pos hin] at hc
          exact Or.inl (Or.inr ⟨sk, hsk, by
            rw [if_pos ((hspec sk hsk).1 hin)]
            exact hc⟩)
        · rw [if_neg hin] at hc
          exact Option.noConfusion hc
      · simp only [hwb sk hsk] at hc
        exact Or.inr ⟨sk, hsk, hc⟩
    · rintro (((hx | ⟨w, hw, hc⟩) | ⟨sk, hsk, hc⟩) | ⟨sk, hsk, hc⟩)
      · exact Or.inl (Or.inl (Or.inl hx))
      · exact Or.inl (Or.inl (Or.inr ⟨w, (hws w).2 hw, hc⟩))
      · by_cases hin : pyLower sk <:+: pyLower t2
        · rw [if_pos hin] at hc
          exact Or.inl (Or.inr ⟨sk, hsk, by
            rw [if_pos ((hspec sk hsk).2 hin)]
            exact hc⟩)
        · rw [if_neg hin] at hc
          exact Option.noConfusion hc
      · simp only [← hwb sk hsk] at hc
        exact Or.inr ⟨sk, hsk, hc⟩
  apply Finset.ext
  intro x
  simp only [extract_skills]
  rw [fuzzyLayer_eq, fuzzyLayer_eq, mem_optInsertFold, mem_optInsertFold, hs3]
  apply or_congr Iff.rfl
  constructor
  · rintro ⟨w, hw, hc⟩
    exact ⟨w, (hws w).1 hw, hc⟩
  · rintro ⟨w, hw, hc⟩
    exact ⟨w, (hws w).2 hw, hc⟩

/-- C6 amended: `extract_skills` is word-order independent except for the
multi-word vocabulary phrases.  For token lists that are permutations of
each other, joined by single spaces, if no space-containing vocabulary
skill matches either text (as a word-boundary phrase), the extracted
skill sets are equal.  (The counterexample shows the exception is real:
separating the words of `"machine learning"` changes the result.) -/
theorem C6_amended (l1 l2 : List (List Char)) (hperm : l1.Perm l2)
    (h1 : ∀ sk ∈ SKILLS_LIST, ' ' ∈ sk →
      wbSearch (pyLower (pyJoin [' '] l1)) (pyLower sk) = false)
    (h2 : ∀ sk ∈ SKILLS_LIST, ' ' ∈ sk →
      wbSearch (pyLower (pyJoin [' '] l2)) (pyLower sk) = false) :
    extract_skills (pyJoin [' '] l1) = extract_skills (pyJoin [' '] l2) := by
  have hmap : (l1.map pyLower).Perm (l2.map pyLower) := hperm.map pyLower
  apply extract_skills_congr
  · intro w
    rw [pyLower_join, pyLower_join, classTokens_join, classTokens_join]
    exact (List.Perm.flatMap_right classTokens hmap).mem_iff
  · intro sk hsk
    have hprops : ∀ s ∈ special_pattern_skills, pyLower s ≠ [] ∧ ' ' ∉ pyLower s := by
      decide
    obtain ⟨hne, hnsp⟩ := hprops sk hsk
    rw [pyLower_join, pyLower_join, infix_join hne hnsp, infix_join hne hnsp]
    exact ⟨fun ⟨tok, ht, h⟩ => ⟨tok, hmap.mem_iff.1 ht, h⟩,
           fun ⟨tok, ht, h⟩ => ⟨tok, hmap.mem_iff.2 ht, h⟩⟩
  · intro sk hsk
    have hcases : ∀ s ∈ SKILLS_LIST, ' ' ∈ s ∨ (pyLower s ≠ [] ∧ ' ' ∉ pyLower s) := by
      decide
    rcases hcases sk hsk with hms | ⟨hne, hnsp⟩
    · rw [h1 sk hsk hms, h2 sk hsk hms]
    · rw [pyLower_join, pyLower_join, wbSearch_join hne hnsp, wbSearch_join hne hnsp]
      exact perm_any hmap _

/-- C6 witness: the amended theorem applied to the permuted token lists
`["python", "sql"]` and `["sql", "python"]`. -/
theorem C6_amended_witness :
    extract_skills (pyJoin [' '] [cs "python", cs "sql"]) =
      extract_skills (pyJoin [' '] [cs "sql", cs "python"]) :=
  C6_amended _ _ (List.Perm.swap (cs "sql") (cs "python") []) (by decide) (by decide)


end HRFlow
